import Mathlib

/-!
Aksara: transliteration between Latin script and Javanese script.

A shallow embedding of `aksara.go`.  Go strings are modelled as Lean `String`s
(well-formed UTF-8 text, a sequence of Unicode scalar values); a `[]rune` is a
`List Char`, a byte is a `Nat` below 256, and a Go `map[string]string` literal is
the list of its entries.  A `(string, error)` result is an `Except String String`.

Two things the Go runtime decides are explicit arguments:
* `caseTable`, the Unicode case mapping that `unicode.ToLower` applies to a rune
  outside ASCII (the `unicode.CaseRanges` data);
* `order`, the order in which one `range` loop enumerates the entries of the map
  `complexConsonantRules` (Go leaves the iteration order of a map unspecified).
-/

namespace Aksara

/-! ## Go maps -/

/-- A `map[string]string` literal: its entries, in the order of the source. -/
abbrev Table := List (String × String)

/-- The map access `v, ok := m[key]`. -/
def Table.lookup : Table → String → Option String
  | [], _ => none
  | (k, v) :: rest, key => if key = k then some v else Table.lookup rest key

/-- The keys of a map. -/
def Table.keys (m : Table) : List String := m.map Prod.fst

/-! ## The translator and its tables -/

/-- The struct `AksaraTranslator`: six mapping tables. -/
structure AksaraTranslator where
  latinToJavanese : Table
  javaneseToLatin : Table
  complexJavaneseRules : Table
  complexConsonantRules : Table
  vowelDiacritics : Table
  specialCharacters : Table

/-- The constructor `NewAksaraTranslator`, with the tables of the source. -/
def NewAksaraTranslator : AksaraTranslator :=
  { latinToJavanese := [
      ("a", "ꦲ"), ("b", "ꦧ"), ("c", "ꦕ"), ("d", "ꦢ"),
      ("e", "ꦺ"), ("f", "ꦥ꦳"), ("g", "ꦒ"), ("h", "ꦲꦃ"),
      ("i", "ꦶ"), ("j", "ꦗ"), ("k", "ꦏ"), ("l", "ꦭ"),
      ("m", "ꦩ"), ("n", "ꦤ"), ("o", "ꦺꦴ"), ("p", "ꦥ"),
      ("q", "ꦐ"), ("r", "ꦫ"), ("s", "ꦱ"), ("t", "ꦠ"),
      ("u", "ꦸ"), ("v", "ꦮ꦳"), ("w", "ꦮ"), ("x", "ꦼ"),
      ("y", "ꦪ"), ("z", "ꦗ꦳")],
    javaneseToLatin := [
      ("ꦲ", "a"), ("ꦧ", "b"), ("ꦕ", "c"), ("ꦢ", "d"),
      ("ꦺ", "e"), ("ꦥ꦳", "f"), ("ꦒ", "g"), ("ꦲꦃ", "h"),
      ("ꦶ", "i"), ("ꦗ", "j"), ("ꦏ", "k"), ("ꦭ", "l"),
      ("ꦩ", "m"), ("ꦤ", "n"), ("ꦺꦴ", "o"), ("ꦥ", "p"),
      ("ꦐ", "q"), ("ꦫ", "r"), ("ꦱ", "s"), ("ꦠ", "t"),
      ("ꦸ", "u"), ("ꦮ꦳", "v"), ("ꦮ", "w"), ("ꦼ", "x"),
      ("ꦪ", "y"), ("ꦗ꦳", "z")],
    complexConsonantRules := [
      ("ng", "ꦔ"), ("ny", "ꦚ"),
      ("th", "ꦛ"), ("dh", "ꦝ")],
    vowelDiacritics := [
      ("a", "ꦄ"), ("i", "ꦶ"), ("u", "ꦸ"),
      ("e", "ꦺ"), ("o", "ꦺꦴ")],
    specialCharacters := [
      ("(", "꧀"), (")", "꧀"),
      ("[", "꧀"), ("]", "꧀"),
      (".", "꧁"), (",", "꧂")],
    complexJavaneseRules := [
      ("ꦲꦶ", "i"), ("ꦲꦸ", "u"), ("ꦲꦺ", "e"), ("ꦲꦺꦴ", "o"),
      ("ꦔ", "ng"), ("ꦚ", "ny"), ("ꦛ", "th"), ("ꦝ", "dh")] }

/-! ## The Go library functions the translator calls -/

/-- `unicode.ToLower`: an ASCII rune is lowered by arithmetic; any other rune goes
through the Unicode case table, here the argument `caseTable`. -/
def unicodeToLower (caseTable : Char → Char) (r : Char) : Char :=
  if r.toNat ≤ 0x7F then
    if 'A'.toNat ≤ r.toNat ∧ r.toNat ≤ 'Z'.toNat then
      Char.ofNat (r.toNat + ('a'.toNat - 'A'.toNat))
    else r
  else caseTable r

/-- `strings.ToLower`: every rune of the text mapped through `unicode.ToLower`. -/
def stringsToLower (caseTable : Char → Char) (s : String) : String :=
  ⟨s.data.map (unicodeToLower caseTable)⟩

/-- The scan of `strings.Replace`: the leftmost occurrences of `old`, one after the
other without overlap, give way to `new`.  `skip` is the number of runes of the
occurrence just replaced that are still to be passed over.  Go searches bytes; in
well-formed UTF-8 an occurrence of a well-formed `old` starts and ends on rune
boundaries, so the search over runes finds the same occurrences. -/
def replaceFrom (old new : List Char) : Nat → List Char → List Char
  | _, [] => []
  | skip + 1, _ :: cs => replaceFrom old new skip cs
  | 0, c :: cs =>
    if old.isPrefixOf (c :: cs) then new ++ replaceFrom old new (old.length - 1) cs
    else c :: replaceFrom old new 0 cs

/-- `strings.ReplaceAll(s, old, new)`.  With an empty `old`, Go puts `new` in front
of the text and after each of its runes. -/
def stringsReplaceAll (s old new : String) : String :=
  if old = new then s
  else if old.data = [] then ⟨new.data ++ s.data.flatMap (fun c => c :: new.data)⟩
  else ⟨replaceFrom old.data new.data 0 s.data⟩

/-- `unicode.IsSpace`: the runes with Unicode's White_Space property. -/
def unicodeIsSpace (r : Char) : Bool :=
  let n := r.toNat
  (0x09 ≤ n && n ≤ 0x0D) || n = 0x20 || n = 0x85 || n = 0xA0 || n = 0x1680 ||
  (0x2000 ≤ n && n ≤ 0x200A) || n = 0x2028 || n = 0x2029 || n = 0x202F ||
  n = 0x205F || n = 0x3000

/-- `strings.TrimSpace`: the text without its leading and trailing white space. -/
def stringsTrimSpace (s : String) : String :=
  ⟨(s.data.dropWhile unicodeIsSpace).rdropWhile unicodeIsSpace⟩

/-- `utf8.EncodeRune`: the bytes of a rune in UTF-8. -/
def utf8EncodeRune (r : Char) : List Nat :=
  let n := r.toNat
  if n < 0x80 then [n]
  else if n < 0x800 then [0xC0 + n / 0x40, 0x80 + n % 0x40]
  else if n < 0x10000 then [0xE0 + n / 0x1000, 0x80 + n / 0x40 % 0x40, 0x80 + n % 0x40]
  else [0xF0 + n / 0x40000, 0x80 + n / 0x1000 % 0x40, 0x80 + n / 0x40 % 0x40, 0x80 + n % 0x40]

/-- The bytes of a Go string: `input[i]` is the `i`-th element. -/
def stringBytes (s : String) : List Nat := s.data.flatMap utf8EncodeRune

/-- The conversion `string(b)` of a byte: the text of the one rune whose code point
is the value of the byte. -/
def byteToString (b : Nat) : String := ⟨[Char.ofNat b]⟩

/-- The conversion `string(r)` of a rune. -/
def runeToString (r : Char) : String := ⟨[r]⟩

/-! ## TranslateLatinToJavanese -/

/-- The loop `for consonant, replacement := range t.complexConsonantRules`, its
entries visited in the order `order`. -/
def preprocessConsonants (order : Table) (input : String) : String :=
  order.foldl (fun acc rule => stringsReplaceAll acc rule.1 rule.2) input

/-- Lines 95 to 103: the translation of one rune that is neither a special
character nor the start of a two-rune rule. -/
def translateChar (t : AksaraTranslator) (r : Char) : String :=
  match t.latinToJavanese.lookup (runeToString r) with
  | some javaneseChar => javaneseChar
  | none =>
    match t.vowelDiacritics.lookup (runeToString r) with
    | some vowelDiacritic => vowelDiacritic
    | none => runeToString r

/-- The loop over `runes` (lines 76 to 104), as a function of the runes from index
`i` on; the value is what the loop writes to `result` from there. -/
def scanRunes (t : AksaraTranslator) : List Char → String
  | [] => ""
  | [r] =>
    match t.specialCharacters.lookup (runeToString r) with
    | some special => special
    | none => translateChar t r
  | r :: r2 :: rest =>
    match t.specialCharacters.lookup (runeToString r) with
    | some special => special ++ scanRunes t (r2 :: rest)
    | none =>
      match t.complexConsonantRules.lookup (runeToString r ++ runeToString r2) with
      | some replacement => replacement ++ scanRunes t rest
      | none => translateChar t r ++ scanRunes t (r2 :: rest)

/-- The method `TranslateLatinToJavanese`. -/
def TranslateLatinToJavanese (t : AksaraTranslator) (caseTable : Char → Char)
    (order : Table) (input : String) : Except String String :=
  if input = "" then .error "input cannot be empty"
  else
    let input := stringsToLower caseTable input
    let input := preprocessConsonants order input
    let runes := input.data
    .ok (scanRunes t runes)

/-! ## TranslateJavaneseToLatin -/

/-- Lines 135 to 141: the translation of one byte. -/
def translateByte (t : AksaraTranslator) (b : Nat) : String :=
  match t.javaneseToLatin.lookup (byteToString b) with
  | some latinChar => latinChar
  | none => byteToString b

/-- The loop over the bytes of `input` (lines 122 to 142), as a function of the
bytes from index `i` on. -/
def scanBytes (t : AksaraTranslator) : List Nat → String
  | [] => ""
  | [b] => translateByte t b
  | b :: b2 :: rest =>
    match t.complexJavaneseRules.lookup (byteToString b ++ byteToString b2) with
    | some translation => translation ++ scanBytes t rest
    | none => translateByte t b ++ scanBytes t (b2 :: rest)

/-- The method `TranslateJavaneseToLatin`. -/
def TranslateJavaneseToLatin (t : AksaraTranslator) (input : String) :
    Except String String :=
  if input = "" then .error "input cannot be empty"
  else
    match t.complexJavaneseRules.lookup input with
    | some translation => .ok translation
    | none => .ok (scanBytes t (stringBytes input))

/-! ## Validation, normalisation, detection, dispatch -/

/-- The class `\s` of Go regular expressions: tab, line feed, form feed, carriage
return and space. -/
def regexSpace (r : Char) : Bool :=
  r = '\t' || r = '\n' || r.toNat = 0x0C || r = '\r' || r = ' '

/-- The character class `[ꦲ-ꧾ\s]` of the validation pattern. -/
def validationClass (r : Char) : Bool :=
  ('ꦲ'.toNat ≤ r.toNat && r.toNat ≤ 'ꧾ'.toNat) || regexSpace r

/-- The method `IsValidAksaraJava`: the pattern `^[ꦲ-ꧾ\s]+$` matches `input`, that
is, `input` is one or more runes of the class and nothing else. -/
def IsValidAksaraJava (_t : AksaraTranslator) (input : String) : Bool :=
  !input.data.isEmpty && input.data.all validationClass

/-- The method `NormalizeText`. -/
def NormalizeText (t : AksaraTranslator) (caseTable : Char → Char) (input : String) :
    String :=
  let input := stringsTrimSpace input
  if IsValidAksaraJava t input then input
  else stringsToLower caseTable input

/-- The loop of `DetectScript` over the runes of `input`. -/
def detectLoop : List Char → String
  | [] => "Latin"
  | char :: rest =>
    if char.toNat ≥ 0xA980 ∧ char.toNat ≤ 0xA9DF then "Javanese"
    else detectLoop rest

/-- The method `DetectScript`. -/
def DetectScript (_t : AksaraTranslator) (input : String) : String :=
  detectLoop input.data

/-- The method `Translate`. -/
def Translate (t : AksaraTranslator) (caseTable : Char → Char) (order : Table)
    (input : String) : Except String String :=
  let script := DetectScript t input
  if script = "Latin" then TranslateLatinToJavanese t caseTable order input
  else TranslateJavaneseToLatin t input

/-! ## Notions used to state the properties -/

/-- The number of occurrences of `old` in a text: the number of positions at which
`old` starts. -/
def occurrences (old : String) (s : String) : Nat :=
  s.data.tails.countP (fun rest => old.data.isPrefixOf rest)

/-- One step of the single-pass scan of the specification when no digraph starts at
the rune: the punctuation mapping, else the base-letter mapping, else the rune
itself. -/
def greedySymbol (t : AksaraTranslator) (r : Char) : String :=
  match t.specialCharacters.lookup (runeToString r) with
  | some special => special
  | none =>
    match t.latinToJavanese.lookup (runeToString r) with
    | some javaneseChar => javaneseChar
    | none => runeToString r

/-- The single-pass greedy longest-match scan, in the words of the specification:
at each position, when the next two runes form a digraph key, the digraph
consonant is written and the scan advances by two; else one rune is translated by
`greedySymbol` and the scan advances by one. -/
def greedyLongestMatch (t : AksaraTranslator) : List Char → String
  | [] => ""
  | [r] => greedySymbol t r
  | r :: r2 :: rest =>
    match t.complexConsonantRules.lookup (runeToString r ++ runeToString r2) with
    | some consonant => consonant ++ greedyLongestMatch t rest
    | none => greedySymbol t r ++ greedyLongestMatch t (r2 :: rest)

/-! ## Errors and dispatch -/

theorem translateLatinToJavanese_ne_empty (t : AksaraTranslator) (caseTable : Char → Char)
    (order : Table) (input : String) (h : input ≠ "") :
    TranslateLatinToJavanese t caseTable order input =
      .ok (scanRunes t (preprocessConsonants order (stringsToLower caseTable input)).data) := by
  simp [TranslateLatinToJavanese, h]

theorem translateJavaneseToLatin_ne_empty (t : AksaraTranslator) (input : String)
    (h : input ≠ "") :
    TranslateJavaneseToLatin t input =
      .ok ((t.complexJavaneseRules.lookup input).getD (scanBytes t (stringBytes input))) := by
  unfold TranslateJavaneseToLatin
  rw [if_neg h]
  cases t.complexJavaneseRules.lookup input <;> rfl

/-- C1: each translation direction returns an error exactly on the empty string;
every other input, recognisable or not, yields a result and no error. -/
theorem translate_error_iff_empty (caseTable : Char → Char) (order : Table) (s : String) :
    ((∃ e, TranslateLatinToJavanese NewAksaraTranslator caseTable order s = .error e) ↔ s = "") ∧
    ((∃ e, TranslateJavaneseToLatin NewAksaraTranslator s = .error e) ↔ s = "") ∧
    (s ≠ "" →
      (∃ r, TranslateLatinToJavanese NewAksaraTranslator caseTable order s = .ok r) ∧
      (∃ r, TranslateJavaneseToLatin NewAksaraTranslator s = .ok r)) := by
  by_cases h : s = ""
  · subst h
    simp [TranslateLatinToJavanese, TranslateJavaneseToLatin]
  · simp [translateLatinToJavanese_ne_empty _ _ _ _ h, translateJavaneseToLatin_ne_empty _ _ h, h]

theorem detectLoop_eq_javanese (l : List Char) :
    detectLoop l = "Javanese" ↔ ∃ c ∈ l, 0xA980 ≤ c.toNat ∧ c.toNat ≤ 0xA9DF := by
  induction l with
  | nil => simp [detectLoop]
  | cons c rest ih =>
    unfold detectLoop
    by_cases hc : c.toNat ≥ 0xA980 ∧ c.toNat ≤ 0xA9DF
    · rw [if_pos hc]
      simp only [List.mem_cons, true_iff]
      exact ⟨c, Or.inl rfl, hc.1, hc.2⟩
    · rw [if_neg hc, ih]
      constructor
      · rintro ⟨d, hd, h⟩
        exact ⟨d, List.mem_cons_of_mem _ hd, h⟩
      · rintro ⟨d, hd, h⟩
        rcases List.mem_cons.mp hd with rfl | hd
        · exact absurd h hc
        · exact ⟨d, hd, h⟩

theorem detectLoop_cases (l : List Char) : detectLoop l = "Javanese" ∨ detectLoop l = "Latin" := by
  induction l with
  | nil => right; rfl
  | cons c rest ih =>
    unfold detectLoop
    split
    · left; rfl
    · exact ih

theorem detectLoop_eq_latin (l : List Char) :
    detectLoop l = "Latin" ↔ ∀ c ∈ l, ¬ (0xA980 ≤ c.toNat ∧ c.toNat ≤ 0xA9DF) := by
  have hne : ("Javanese" : String) ≠ "Latin" := by decide
  have h := detectLoop_eq_javanese l
  constructor
  · intro hl c hc hr
    have : detectLoop l = "Javanese" := h.mpr ⟨c, hc, hr⟩
    rw [hl] at this
    exact hne this.symm
  · intro hall
    rcases detectLoop_cases l with hj | hl
    · obtain ⟨c, hc, hr⟩ := h.mp hj
      exact absurd hr (hall c hc)
    · exact hl

/-- C3: `DetectScript` answers "Javanese" exactly when some code point of the input
lies in U+A980..U+A9DF and "Latin" otherwise; the empty text is "Latin" and the
text U+A98F U+A99A U+A9C0 U+A995 is "Javanese". -/
theorem detectScript_spec (s : String) :
    (DetectScript NewAksaraTranslator s = "Javanese" ↔
      ∃ c ∈ s.data, 0xA980 ≤ c.toNat ∧ c.toNat ≤ 0xA9DF) ∧
    (DetectScript NewAksaraTranslator s = "Latin" ↔
      ¬ ∃ c ∈ s.data, 0xA980 ≤ c.toNat ∧ c.toNat ≤ 0xA9DF) ∧
    DetectScript NewAksaraTranslator "" = "Latin" ∧
    DetectScript NewAksaraTranslator "ꦏꦚ꧀ꦕ" = "Javanese" ∧
    "ꦏꦚ꧀ꦕ".data.map Char.toNat = [0xA98F, 0xA99A, 0xA9C0, 0xA995] := by
  refine ⟨detectLoop_eq_javanese s.data, ?_, by decide, by decide, by decide⟩
  rw [DetectScript, detectLoop_eq_latin]
  constructor
  · rintro h ⟨c, hc, hr⟩
    exact h c hc hr
  · intro h c hc hr
    exact h ⟨c, hc, hr⟩

/-- C2: `Translate` is `TranslateLatinToJavanese` when `DetectScript` answers
"Latin", that is when no code point of the input lies in U+A980..U+A9DF, and
`TranslateJavaneseToLatin` otherwise; it returns an error exactly on the empty
string. -/
theorem translate_dispatch (caseTable : Char → Char) (order : Table) (s : String) :
    (DetectScript NewAksaraTranslator s = "Latin" ↔
      ∀ c ∈ s.data, ¬ (0xA980 ≤ c.toNat ∧ c.toNat ≤ 0xA9DF)) ∧
    (DetectScript NewAksaraTranslator s = "Latin" →
      Translate NewAksaraTranslator caseTable order s =
        TranslateLatinToJavanese NewAksaraTranslator caseTable order s) ∧
    (DetectScript NewAksaraTranslator s ≠ "Latin" →
      Translate NewAksaraTranslator caseTable order s =
        TranslateJavaneseToLatin NewAksaraTranslator s) ∧
    ((∃ e, Translate NewAksaraTranslator caseTable order s = .error e) ↔ s = "") := by
  refine ⟨detectLoop_eq_latin s.data, ?_, ?_, ?_⟩
  · intro h
    simp [Translate, h]
  · intro h
    simp [Translate, h]
  · by_cases hs : s = ""
    · subst hs
      simp [Translate, DetectScript, detectLoop, TranslateLatinToJavanese]
    · simp only [hs, iff_false, not_exists]
      intro e
      unfold Translate
      simp only
      split
      · simp [translateLatinToJavanese_ne_empty _ _ _ _ hs]
      · simp [translateJavaneseToLatin_ne_empty _ _ hs]

/-! ## Validation and normalisation -/

theorem isValidAksaraJava_iff (t : AksaraTranslator) (s : String) :
    IsValidAksaraJava t s = true ↔ s ≠ "" ∧ ∀ c ∈ s.data, validationClass c = true := by
  have hs : s = "" ↔ s.data = [] := by
    rw [String.ext_iff]
  simp [IsValidAksaraJava, hs]

/-- C5: `IsValidAksaraJava("abc")` is false, and so is `IsValidAksaraJava` of the
text U+A98F U+A99A: both runes lie below the first rune U+A9B2 of the validation
class. -/
theorem isValidAksaraJava_literals :
    IsValidAksaraJava NewAksaraTranslator "abc" = false ∧
    IsValidAksaraJava NewAksaraTranslator "ꦏꦚ" = false ∧
    "ꦏꦚ".data.map Char.toNat = [0xA98F, 0xA99A] ∧
    ('ꦲ'.toNat = 0xA9B2 ∧ 'ꧾ'.toNat = 0xA9FE) := by
  decide

/-- C4, as stated, fails on the text of one space: the pattern accepts it, while
its trimmed form is empty. -/
theorem isValidAksaraJava_space_only :
    ¬ (IsValidAksaraJava NewAksaraTranslator " " = true ↔
        (stringsTrimSpace " " ≠ "" ∧
          ∀ c ∈ (stringsTrimSpace " ").data,
            (0xA980 ≤ c.toNat ∧ c.toNat ≤ 0xA9DF) ∨ unicodeIsSpace c = true)) := by
  decide

/-- C4, amended: on a text with no rune in U+A980..U+A9B1 and none in
U+A9E0..U+A9FE, `IsValidAksaraJava` holds exactly when the text, untrimmed, is
non-empty and made only of runes of the block U+A980..U+A9DF and of tab, line
feed, form feed, carriage return and space. -/
theorem isValidAksaraJava_block (s : String)
    (h : ∀ c ∈ s.data, ¬ (0xA980 ≤ c.toNat ∧ c.toNat < 0xA9B2) ∧
      ¬ (0xA9DF < c.toNat ∧ c.toNat ≤ 0xA9FE)) :
    IsValidAksaraJava NewAksaraTranslator s = true ↔
      s ≠ "" ∧ ∀ c ∈ s.data, (0xA980 ≤ c.toNat ∧ c.toNat ≤ 0xA9DF) ∨
        c = '\t' ∨ c = '\n' ∨ c.toNat = 0x0C ∨ c = '\r' ∨ c = ' ' := by
  rw [isValidAksaraJava_iff]
  have hlo : 'ꦲ'.toNat = 0xA9B2 := by decide
  have hhi : 'ꧾ'.toNat = 0xA9FE := by decide
  have key : ∀ c ∈ s.data, (validationClass c = true ↔
      ((0xA980 ≤ c.toNat ∧ c.toNat ≤ 0xA9DF) ∨
        c = '\t' ∨ c = '\n' ∨ c.toNat = 0x0C ∨ c = '\r' ∨ c = ' ')) := by
    intro c hc
    obtain ⟨h1, h2⟩ := h c hc
    simp only [validationClass, regexSpace, hlo, hhi, Bool.or_eq_true, Bool.and_eq_true,
      decide_eq_true_eq]
    constructor
    · rintro (⟨a, b⟩ | hsp)
      · left
        omega
      · right
        tauto
    · rintro (⟨a, b⟩ | hsp)
      · left
        omega
      · right
        tauto
  constructor
  · rintro ⟨hne, hall⟩
    exact ⟨hne, fun c hc => (key c hc).mp (hall c hc)⟩
  · rintro ⟨hne, hall⟩
    exact ⟨hne, fun c hc => (key c hc).mpr (hall c hc)⟩

/-- C4, amended, at the text U+A9B2, space, U+A9BA. -/
theorem isValidAksaraJava_block_witness :
    (∀ c ∈ "ꦲ ꦺ".data, ¬ (0xA980 ≤ c.toNat ∧ c.toNat < 0xA9B2) ∧
      ¬ (0xA9DF < c.toNat ∧ c.toNat ≤ 0xA9FE)) ∧
    (IsValidAksaraJava NewAksaraTranslator "ꦲ ꦺ" = true ↔
      "ꦲ ꦺ" ≠ "" ∧ ∀ c ∈ "ꦲ ꦺ".data, (0xA980 ≤ c.toNat ∧ c.toNat ≤ 0xA9DF) ∨
        c = '\t' ∨ c = '\n' ∨ c.toNat = 0x0C ∨ c = '\r' ∨ c = ' ') :=
  ⟨by decide, isValidAksaraJava_block "ꦲ ꦺ" (by decide)⟩

theorem rdropWhile_append_rtakeWhile (p : Char → Bool) (l : List Char) :
    l.rdropWhile p ++ l.rtakeWhile p = l := by
  unfold List.rdropWhile List.rtakeWhile
  rw [← List.reverse_append, List.takeWhile_append_dropWhile, List.reverse_reverse]

/-- What `strings.TrimSpace` returns: the text between a leading and a trailing run
of white space, itself neither starting nor ending with white space. -/
theorem stringsTrimSpace_spec (s : String) :
    ∃ pre post : List Char,
      s.data = pre ++ (stringsTrimSpace s).data ++ post ∧
      (∀ c ∈ pre, unicodeIsSpace c = true) ∧ (∀ c ∈ post, unicodeIsSpace c = true) ∧
      (∀ c, (stringsTrimSpace s).data.head? = some c → unicodeIsSpace c = false) ∧
      (∀ c, (stringsTrimSpace s).data.getLast? = some c → unicodeIsSpace c = false) := by
  refine ⟨s.data.takeWhile unicodeIsSpace,
    (s.data.dropWhile unicodeIsSpace).rtakeWhile unicodeIsSpace, ?_, ?_, ?_, ?_, ?_⟩
  · simp only [stringsTrimSpace]
    rw [List.append_assoc, rdropWhile_append_rtakeWhile, List.takeWhile_append_dropWhile]
  · intro c hc
    exact List.mem_takeWhile_imp hc
  · intro c hc
    exact List.mem_rtakeWhile_imp hc
  · intro c hc
    simp only [stringsTrimSpace] at hc
    have hne : (s.data.dropWhile unicodeIsSpace).rdropWhile unicodeIsSpace ≠ [] := by
      intro h0
      rw [h0] at hc
      simp at hc
    obtain ⟨u, hu⟩ := List.rdropWhile_prefix unicodeIsSpace (s.data.dropWhile unicodeIsSpace)
    have h1 := List.head?_dropWhile_not unicodeIsSpace s.data
    rw [← hu, List.head?_append_of_ne_nil _ hne, hc] at h1
    exact h1
  · intro c hc
    simp only [stringsTrimSpace] at hc
    have hne : (s.data.dropWhile unicodeIsSpace).rdropWhile unicodeIsSpace ≠ [] := by
      intro h0
      rw [h0] at hc
      simp at hc
    have h1 := List.rdropWhile_last_not unicodeIsSpace (s.data.dropWhile unicodeIsSpace) hne
    rw [List.getLast?_eq_getLast _ hne] at hc
    simp only [Option.some.injEq] at hc
    rw [hc] at h1
    simpa using h1

/-- C6: `NormalizeText` trims leading and trailing white space, returns the trimmed
text when it passes `IsValidAksaraJava` and its lower-cased form otherwise;
`NormalizeText("  KANCA ")` is "kanca". -/
theorem normalizeText_spec (caseTable : Char → Char) (s : String) :
    (∃ (pre post : List Char) (trimmed : String),
      s.data = pre ++ trimmed.data ++ post ∧
      (∀ c ∈ pre, unicodeIsSpace c = true) ∧ (∀ c ∈ post, unicodeIsSpace c = true) ∧
      (∀ c, trimmed.data.head? = some c → unicodeIsSpace c = false) ∧
      (∀ c, trimmed.data.getLast? = some c → unicodeIsSpace c = false) ∧
      (IsValidAksaraJava NewAksaraTranslator trimmed = true →
        NormalizeText NewAksaraTranslator caseTable s = trimmed) ∧
      (IsValidAksaraJava NewAksaraTranslator trimmed = false →
        NormalizeText NewAksaraTranslator caseTable s =
          ⟨trimmed.data.map (unicodeToLower caseTable)⟩)) ∧
    NormalizeText NewAksaraTranslator caseTable "  KANCA " = "kanca" := by
  refine ⟨?_, rfl⟩
  obtain ⟨pre, post, h1, h2, h3, h4, h5⟩ := stringsTrimSpace_spec s
  refine ⟨pre, post, stringsTrimSpace s, h1, h2, h3, h4, h5, ?_, ?_⟩
  · intro hv
    simp [NormalizeText, hv]
  · intro hv
    simp [NormalizeText, hv, stringsToLower]

/-! ## Table facts -/

theorem runeToString_append (a b : Char) : runeToString a ++ runeToString b = ⟨[a, b]⟩ := by
  apply String.ext
  simp [runeToString]

theorem lookup_mem (m : Table) (k v : String) (h : m.lookup k = some v) : (k, v) ∈ m := by
  induction m with
  | nil => simp [Table.lookup] at h
  | cons p rest ih =>
    obtain ⟨k', v'⟩ := p
    unfold Table.lookup at h
    by_cases hk : k = k'
    · rw [if_pos hk] at h
      simp only [Option.some.injEq] at h
      subst hk; subst h
      exact List.mem_cons_self _ _
    · rw [if_neg hk] at h
      exact List.mem_cons_of_mem _ (ih h)

theorem special_lookup (c : Char) (v : String)
    (h : NewAksaraTranslator.specialCharacters.lookup (runeToString c) = some v) :
    c = '(' ∨ c = ')' ∨ c = '[' ∨ c = ']' ∨ c = '.' ∨ c = ',' := by
  have := lookup_mem _ _ _ h
  simp [NewAksaraTranslator, runeToString, String.ext_iff] at this
  tauto

theorem pair_lookup (a b : Char) (v : String)
    (h : NewAksaraTranslator.complexConsonantRules.lookup ⟨[a, b]⟩ = some v) :
    (a = 'n' ∨ a = 't' ∨ a = 'd') ∧ (b = 'g' ∨ b = 'y' ∨ b = 'h') := by
  have := lookup_mem _ _ _ h
  simp [NewAksaraTranslator, String.ext_iff] at this
  tauto

theorem latin_lookup (c : Char) (v : String)
    (h : NewAksaraTranslator.latinToJavanese.lookup (runeToString c) = some v) :
    97 ≤ c.toNat ∧ c.toNat ≤ 122 := by
  have := lookup_mem _ _ _ h
  simp [NewAksaraTranslator, runeToString, String.ext_iff] at this
  rcases this with h | h | h | h | h | h | h | h | h | h | h | h | h | h | h | h | h | h | h |
    h | h | h | h | h | h | h <;>
  · rw [h.1]; decide

theorem vowel_lookup (c : Char) (v : String)
    (h : NewAksaraTranslator.vowelDiacritics.lookup (runeToString c) = some v) :
    97 ≤ c.toNat ∧ c.toNat ≤ 122 := by
  have := lookup_mem _ _ _ h
  simp [NewAksaraTranslator, runeToString, String.ext_iff] at this
  rcases this with h | h | h | h | h <;>
  · rw [h.1]; decide

theorem special_lookup_none (c : Char)
    (h : ¬ (c = '(' ∨ c = ')' ∨ c = '[' ∨ c = ']' ∨ c = '.' ∨ c = ',')) :
    NewAksaraTranslator.specialCharacters.lookup (runeToString c) = none := by
  cases hl : NewAksaraTranslator.specialCharacters.lookup (runeToString c) with
  | none => rfl
  | some v => exact absurd (special_lookup c v hl) h

theorem pair_lookup_none_left (a b : Char) (h : ¬ (a = 'n' ∨ a = 't' ∨ a = 'd')) :
    NewAksaraTranslator.complexConsonantRules.lookup ⟨[a, b]⟩ = none := by
  cases hl : NewAksaraTranslator.complexConsonantRules.lookup ⟨[a, b]⟩ with
  | none => rfl
  | some v => exact absurd (pair_lookup a b v hl).1 h

theorem pair_lookup_none_right (a b : Char) (h : ¬ (b = 'g' ∨ b = 'y' ∨ b = 'h')) :
    NewAksaraTranslator.complexConsonantRules.lookup ⟨[a, b]⟩ = none := by
  cases hl : NewAksaraTranslator.complexConsonantRules.lookup ⟨[a, b]⟩ with
  | none => rfl
  | some v => exact absurd (pair_lookup a b v hl).2 h

theorem translateChar_of_not_letter (c : Char) (h : ¬ (97 ≤ c.toNat ∧ c.toNat ≤ 122)) :
    translateChar NewAksaraTranslator c = runeToString c := by
  unfold translateChar
  cases h1 : NewAksaraTranslator.latinToJavanese.lookup (runeToString c) with
  | some v => exact absurd (latin_lookup c v h1) h
  | none =>
    cases h2 : NewAksaraTranslator.vowelDiacritics.lookup (runeToString c) with
    | some v => exact absurd (vowel_lookup c v h2) h
    | none => rfl

/-! ## The scan of `TranslateLatinToJavanese`, one rune at a time -/

theorem scanRunes_cons_special (t : AksaraTranslator) (c : Char) (sp : String) (l : List Char)
    (h : t.specialCharacters.lookup (runeToString c) = some sp) :
    scanRunes t (c :: l) = sp ++ scanRunes t l := by
  cases l with
  | nil => simp [scanRunes, h]
  | cons b l => simp [scanRunes, h]

theorem scanRunes_cons_single (t : AksaraTranslator) (c : Char) (l : List Char)
    (h : t.specialCharacters.lookup (runeToString c) = none)
    (hp : ∀ b, l.head? = some b → t.complexConsonantRules.lookup ⟨[c, b]⟩ = none) :
    scanRunes t (c :: l) = translateChar t c ++ scanRunes t l := by
  cases l with
  | nil => simp [scanRunes, h]
  | cons b l =>
    have := hp b rfl
    simp [scanRunes, h, runeToString_append, this]

theorem scanRunes_cons_pair (t : AksaraTranslator) (a b : Char) (v : String) (l : List Char)
    (h : t.specialCharacters.lookup (runeToString a) = none)
    (hp : t.complexConsonantRules.lookup ⟨[a, b]⟩ = some v) :
    scanRunes t (a :: b :: l) = v ++ scanRunes t l := by
  simp [scanRunes, h, runeToString_append, hp]

theorem not_letter_of_ge (j : Char) (hj : 128 ≤ j.toNat) :
    ¬ (j = '(' ∨ j = ')' ∨ j = '[' ∨ j = ']' ∨ j = '.' ∨ j = ',') ∧
    ¬ (j = 'n' ∨ j = 't' ∨ j = 'd') ∧ ¬ (j = 'g' ∨ j = 'y' ∨ j = 'h') ∧
    ¬ (97 ≤ j.toNat ∧ j.toNat ≤ 122) := by
  refine ⟨?_, ?_, ?_, by omega⟩
  · rintro (h | h | h | h | h | h) <;> · subst h; revert hj; decide
  · rintro (h | h | h) <;> · subst h; revert hj; decide
  · rintro (h | h | h) <;> · subst h; revert hj; decide

/-- A rune outside ASCII is written through unchanged. -/
theorem scanRunes_cons_inert (j : Char) (hj : 128 ≤ j.toNat) (l : List Char) :
    scanRunes NewAksaraTranslator (j :: l) =
      runeToString j ++ scanRunes NewAksaraTranslator l := by
  obtain ⟨h1, h2, _, h4⟩ := not_letter_of_ge j hj
  rw [scanRunes_cons_single _ _ _ (special_lookup_none j h1)
    (fun b _ => pair_lookup_none_left j b h2), translateChar_of_not_letter j h4]

/-! ## The pre-pass adds nothing to the scan -/

theorem replaceFrom_pair_single (x y : Char) (new : List Char) (c : Char) :
    replaceFrom [x, y] new 0 [c] = [c] := by
  simp [replaceFrom, List.isPrefixOf]

theorem replaceFrom_pair_match (x y : Char) (new rest : List Char) :
    replaceFrom [x, y] new 0 (x :: y :: rest) = new ++ replaceFrom [x, y] new 0 rest := by
  simp [replaceFrom, List.isPrefixOf]

theorem replaceFrom_pair_nomatch (x y : Char) (new : List Char) (c1 c2 : Char)
    (rest : List Char) (h : ¬ (c1 = x ∧ c2 = y)) :
    replaceFrom [x, y] new 0 (c1 :: c2 :: rest) =
      c1 :: replaceFrom [x, y] new 0 (c2 :: rest) := by
  have h' : ¬ (x = c1 ∧ y = c2) := fun hh => h ⟨hh.1.symm, hh.2.symm⟩
  rw [replaceFrom]
  simp [List.isPrefixOf, h']

/-- Replacing one digraph by its consonant before the scan changes nothing: the
scan itself takes the digraph, and writes the consonant through. -/
theorem scanRunes_replaceFrom (x y j : Char)
    (hrule : NewAksaraTranslator.complexConsonantRules.lookup ⟨[x, y]⟩ = some (runeToString j))
    (hj : 128 ≤ j.toNat) (l : List Char) :
    scanRunes NewAksaraTranslator (replaceFrom [x, y] [j] 0 l) =
      scanRunes NewAksaraTranslator l := by
  obtain ⟨hx, hy⟩ := pair_lookup x y _ hrule
  have hxsp : NewAksaraTranslator.specialCharacters.lookup (runeToString x) = none := by
    apply special_lookup_none
    rcases hx with h | h | h <;> · subst h; decide
  have hxsnd : ¬ (x = 'g' ∨ x = 'y' ∨ x = 'h') := by
    rcases hx with h | h | h <;> · subst h; decide
  have hjsnd := (not_letter_of_ge j hj).2.2.1
  suffices H : ∀ l : List Char,
      (scanRunes NewAksaraTranslator (replaceFrom [x, y] [j] 0 l) =
        scanRunes NewAksaraTranslator l) ∧
      ∀ c, scanRunes NewAksaraTranslator (replaceFrom [x, y] [j] 0 (c :: l)) =
        scanRunes NewAksaraTranslator (c :: l) from (H l).1
  intro l
  induction l with
  | nil =>
    refine ⟨by simp [replaceFrom], fun c => ?_⟩
    rw [replaceFrom_pair_single]
  | cons c2 rest ih =>
    refine ⟨ih.2 c2, fun c1 => ?_⟩
    by_cases hm : c1 = x ∧ c2 = y
    · obtain ⟨rfl, rfl⟩ := hm
      rw [replaceFrom_pair_match, List.singleton_append, scanRunes_cons_inert j hj,
        scanRunes_cons_pair _ _ _ _ _ hxsp hrule, ih.1]
    · rw [replaceFrom_pair_nomatch _ _ _ _ _ _ hm]
      cases hsp : NewAksaraTranslator.specialCharacters.lookup (runeToString c1) with
      | some sp =>
        rw [scanRunes_cons_special _ _ _ _ hsp, scanRunes_cons_special _ _ _ _ hsp, ih.2 c2]
      | none =>
        cases rest with
        | nil => rw [replaceFrom_pair_single]
        | cons c3 rest =>
          by_cases hm2 : c2 = x ∧ c3 = y
          · have hl : scanRunes NewAksaraTranslator
                (c1 :: replaceFrom [x, y] [j] 0 (c2 :: c3 :: rest)) =
                translateChar NewAksaraTranslator c1 ++
                  scanRunes NewAksaraTranslator (replaceFrom [x, y] [j] 0 (c2 :: c3 :: rest)) := by
              apply scanRunes_cons_single _ _ _ hsp
              intro b hb
              obtain ⟨rfl, rfl⟩ := hm2
              rw [replaceFrom_pair_match] at hb
              simp only [List.singleton_append, List.head?_cons, Option.some.injEq] at hb
              subst hb
              exact pair_lookup_none_right _ _ hjsnd
            have hr : scanRunes NewAksaraTranslator (c1 :: c2 :: c3 :: rest) =
                translateChar NewAksaraTranslator c1 ++
                  scanRunes NewAksaraTranslator (c2 :: c3 :: rest) := by
              apply scanRunes_cons_single _ _ _ hsp
              intro b hb
              simp only [List.head?_cons, Option.some.injEq] at hb
              subst hb
              rw [hm2.1]
              exact pair_lookup_none_right _ _ hxsnd
            rw [hl, hr, ih.2 c2]
          · rw [replaceFrom_pair_nomatch _ _ _ _ _ _ hm2]
            cases hp : NewAksaraTranslator.complexConsonantRules.lookup ⟨[c1, c2]⟩ with
            | some w =>
              rw [scanRunes_cons_pair _ _ _ _ _ hsp hp, scanRunes_cons_pair _ _ _ _ _ hsp hp,
                ih.1]
            | none =>
              have hh : ∀ (tl : List Char) (b : Char), (c2 :: tl).head? = some b →
                  NewAksaraTranslator.complexConsonantRules.lookup ⟨[c1, b]⟩ = none := by
                intro tl b hb
                simp only [List.head?_cons, Option.some.injEq] at hb
                subst hb
                exact hp
              rw [scanRunes_cons_single _ _ _ hsp (hh _), scanRunes_cons_single _ _ _ hsp (hh _),
                ← replaceFrom_pair_nomatch _ _ _ _ _ _ hm2, ih.2 c2]

theorem rule_shape (rule : String × String)
    (h : rule ∈ NewAksaraTranslator.complexConsonantRules) :
    ∃ x y j : Char, rule = (⟨[x, y]⟩, runeToString j) ∧ 128 ≤ j.toNat ∧
      NewAksaraTranslator.complexConsonantRules.lookup ⟨[x, y]⟩ = some (runeToString j) := by
  simp only [NewAksaraTranslator, List.mem_cons, List.mem_singleton, List.not_mem_nil,
    or_false] at h
  rcases h with h | h | h | h
  · exact ⟨'n', 'g', 'ꦔ', h, by decide, by decide⟩
  · exact ⟨'n', 'y', 'ꦚ', h, by decide, by decide⟩
  · exact ⟨'t', 'h', 'ꦛ', h, by decide, by decide⟩
  · exact ⟨'d', 'h', 'ꦝ', h, by decide, by decide⟩

theorem scanRunes_stringsReplaceAll (rule : String × String)
    (h : rule ∈ NewAksaraTranslator.complexConsonantRules) (s : String) :
    scanRunes NewAksaraTranslator (stringsReplaceAll s rule.1 rule.2).data =
      scanRunes NewAksaraTranslator s.data := by
  obtain ⟨x, y, j, rfl, hj, hrule⟩ := rule_shape rule h
  have hne : (⟨[x, y]⟩ : String) ≠ runeToString j := by
    simp [runeToString, String.ext_iff]
  simp only [stringsReplaceAll, if_neg hne]
  rw [if_neg (by simp)]
  exact scanRunes_replaceFrom x y j hrule hj s.data

/-- The scan of the pre-processed text is the scan of the text itself, whatever the
order in which the rules were applied. -/
theorem scanRunes_preprocessConsonants (order : Table)
    (horder : ∀ rule ∈ order, rule ∈ NewAksaraTranslator.complexConsonantRules) (s : String) :
    scanRunes NewAksaraTranslator (preprocessConsonants order s).data =
      scanRunes NewAksaraTranslator s.data := by
  unfold preprocessConsonants
  induction order generalizing s with
  | nil => rfl
  | cons rule rest ih =>
    rw [List.foldl_cons, ih (fun r hr => horder r (List.mem_cons_of_mem _ hr)),
      scanRunes_stringsReplaceAll rule (horder rule (List.mem_cons_self _ _))]

/-- On a non-empty input, `TranslateLatinToJavanese` is the scan of the lower-cased
input. -/
theorem translateLatinToJavanese_eq_scan (caseTable : Char → Char) (order : Table)
    (horder : order.Perm NewAksaraTranslator.complexConsonantRules) (s : String)
    (hs : s ≠ "") :
    TranslateLatinToJavanese NewAksaraTranslator caseTable order s =
      .ok (scanRunes NewAksaraTranslator (s.data.map (unicodeToLower caseTable))) := by
  rw [translateLatinToJavanese_ne_empty _ _ _ _ hs,
    scanRunes_preprocessConsonants order (fun r hr => horder.subset hr)]
  rfl

theorem scanRunes_append (u v : List Char)
    (hv : ∀ b, v.head? = some b → ¬ (b = 'g' ∨ b = 'y' ∨ b = 'h')) :
    scanRunes NewAksaraTranslator (u ++ v) =
      scanRunes NewAksaraTranslator u ++ scanRunes NewAksaraTranslator v := by
  have hsingle : ∀ c, scanRunes NewAksaraTranslator (c :: v) =
      scanRunes NewAksaraTranslator [c] ++ scanRunes NewAksaraTranslator v := by
    intro c
    cases hsp : NewAksaraTranslator.specialCharacters.lookup (runeToString c) with
    | some sp =>
      rw [scanRunes_cons_special _ _ _ _ hsp, scanRunes_cons_special _ _ _ _ hsp]
      simp [scanRunes]
    | none =>
      rw [scanRunes_cons_single _ _ _ hsp (fun b hb => pair_lookup_none_right _ _ (hv b hb)),
        scanRunes_cons_single _ _ [] hsp (by simp)]
      simp [scanRunes]
  suffices H : ∀ u : List Char,
      (scanRunes NewAksaraTranslator (u ++ v) =
        scanRunes NewAksaraTranslator u ++ scanRunes NewAksaraTranslator v) ∧
      ∀ c, scanRunes NewAksaraTranslator (c :: u ++ v) =
        scanRunes NewAksaraTranslator (c :: u) ++ scanRunes NewAksaraTranslator v from (H u).1
  intro u
  induction u with
  | nil =>
    refine ⟨by simp [scanRunes], fun c => ?_⟩
    rw [List.cons_append, List.nil_append]
    exact hsingle c
  | cons c2 rest ih =>
    refine ⟨ih.2 c2, fun c1 => ?_⟩
    rw [List.cons_append]
    cases hsp : NewAksaraTranslator.specialCharacters.lookup (runeToString c1) with
    | some sp =>
      rw [scanRunes_cons_special _ _ _ _ hsp, scanRunes_cons_special _ _ _ _ hsp, ih.2 c2,
        String.append_assoc]
    | none =>
      cases hp : NewAksaraTranslator.complexConsonantRules.lookup ⟨[c1, c2]⟩ with
      | some w =>
        rw [List.cons_append, scanRunes_cons_pair _ _ _ _ _ hsp hp,
          scanRunes_cons_pair _ _ _ _ _ hsp hp, ih.1, String.append_assoc]
      | none =>
        have hh : ∀ (tl : List Char) (b : Char), (c2 :: tl).head? = some b →
            NewAksaraTranslator.complexConsonantRules.lookup ⟨[c1, b]⟩ = none := by
          intro tl b hb
          simp only [List.head?_cons, Option.some.injEq] at hb
          subst hb
          exact hp
        have e : c2 :: rest ++ v = c2 :: (rest ++ v) := rfl
        rw [scanRunes_cons_single _ _ _ hsp (by rw [e]; exact hh _),
          scanRunes_cons_single _ _ _ hsp (hh _), ih.2 c2, String.append_assoc]

theorem unicodeToLower_of_lower (caseTable : Char → Char) (c : Char)
    (h : 97 ≤ c.toNat ∧ c.toNat ≤ 122) : unicodeToLower caseTable c = c := by
  have h1 : 'A'.toNat = 65 := by decide
  have h2 : 'Z'.toNat = 90 := by decide
  unfold unicodeToLower
  rw [if_pos (by omega), if_neg (by omega)]

theorem translationOf_eq_scan (caseTable : Char → Char) (order : Table)
    (horder : order.Perm NewAksaraTranslator.complexConsonantRules) (s : String) :
    (TranslateLatinToJavanese NewAksaraTranslator caseTable order s).toOption.getD "" =
      scanRunes NewAksaraTranslator (s.data.map (unicodeToLower caseTable)) := by
  by_cases hs : s = ""
  · subst hs
    simp [TranslateLatinToJavanese, Except.toOption, scanRunes]
  · rw [translateLatinToJavanese_eq_scan caseTable order horder s hs]
    rfl

/-- C7: longest-match precedence.  For each digraph `d` with consonant `c` and all
texts `a` and `b`, the translation of `a ++ d ++ b` is the translation of `a`,
then `c`, then the translation of `b` (an empty part translating to the empty
text); `c` is one rune; "ngoko" translates to U+A994 U+A9BA U+A9B4 U+A98F U+A9BA
U+A9B4, which starts with U+A994 and not with the translations of `n` and `g`. -/
theorem translateLatinToJavanese_digraph (caseTable : Char → Char) (order : Table)
    (horder : order.Perm NewAksaraTranslator.complexConsonantRules) :
    (∀ d c : String, (d, c) ∈ NewAksaraTranslator.complexConsonantRules →
      ∀ a b : String,
        c.length = 1 ∧
        TranslateLatinToJavanese NewAksaraTranslator caseTable order (a ++ d ++ b) =
          .ok ((TranslateLatinToJavanese NewAksaraTranslator caseTable order a).toOption.getD ""
            ++ c ++
            (TranslateLatinToJavanese NewAksaraTranslator caseTable order b).toOption.getD "")) ∧
    NewAksaraTranslator.complexConsonantRules.keys = ["ng", "ny", "th", "dh"] ∧
    TranslateLatinToJavanese NewAksaraTranslator caseTable order "ngoko" = .ok "ꦔꦺꦴꦏꦺꦴ" ∧
    "ꦔꦺꦴꦏꦺꦴ".data.map Char.toNat = [0xA994, 0xA9BA, 0xA9B4, 0xA98F, 0xA9BA, 0xA9B4] ∧
    NewAksaraTranslator.latinToJavanese.lookup "n" = some "ꦤ" ∧
    NewAksaraTranslator.latinToJavanese.lookup "g" = some "ꦒ" ∧
    ¬ ("ꦤꦒ".data <+: "ꦔꦺꦴꦏꦺꦴ".data) := by
  refine ⟨?_, by decide, ?_, by decide, by decide, by decide, by decide⟩
  · intro d c hd a b
    obtain ⟨x, y, j, hrule, hj, hlook⟩ := rule_shape (d, c) hd
    simp only [Prod.mk.injEq] at hrule
    obtain ⟨rfl, rfl⟩ := hrule
    obtain ⟨hx, hy⟩ := pair_lookup x y _ hlook
    refine ⟨rfl, ?_⟩
    have hne : a ++ (⟨[x, y]⟩ : String) ++ b ≠ "" := by
      simp [String.ext_iff]
    have hxl : unicodeToLower caseTable x = x := by
      apply unicodeToLower_of_lower
      rcases hx with h | h | h <;> · subst h; decide
    have hyl : unicodeToLower caseTable y = y := by
      apply unicodeToLower_of_lower
      rcases hy with h | h | h <;> · subst h; decide
    have hxsp : NewAksaraTranslator.specialCharacters.lookup (runeToString x) = none := by
      apply special_lookup_none
      rcases hx with h | h | h <;> · subst h; decide
    have hxsnd : ¬ (x = 'g' ∨ x = 'y' ∨ x = 'h') := by
      rcases hx with h | h | h <;> · subst h; decide
    rw [translateLatinToJavanese_eq_scan caseTable order horder _ hne,
      translationOf_eq_scan caseTable order horder, translationOf_eq_scan caseTable order horder]
    simp only [String.data_append, List.map_append, List.map_cons, List.map_nil, hxl, hyl,
      List.append_assoc]
    rw [scanRunes_append _ _ (by
        intro b hb
        simp only [List.cons_append, List.head?_cons, Option.some.injEq] at hb
        subst hb
        exact hxsnd)]
    rw [List.cons_append, List.cons_append, List.nil_append,
      scanRunes_cons_pair _ _ _ _ _ hxsp hlook, String.append_assoc]
  · rw [translateLatinToJavanese_eq_scan caseTable order horder _ (by decide)]
    rfl

/-- C7 at the identity case table and the source order of the rules, with the
digraph "ng" between "ka" and "ka". -/
theorem translateLatinToJavanese_digraph_witness :
    NewAksaraTranslator.complexConsonantRules.Perm NewAksaraTranslator.complexConsonantRules ∧
    ("ng", "ꦔ") ∈ NewAksaraTranslator.complexConsonantRules ∧
    TranslateLatinToJavanese NewAksaraTranslator id NewAksaraTranslator.complexConsonantRules
        ("ka" ++ "ng" ++ "ka") =
      .ok ((TranslateLatinToJavanese NewAksaraTranslator id
          NewAksaraTranslator.complexConsonantRules "ka").toOption.getD "" ++ "ꦔ" ++
        (TranslateLatinToJavanese NewAksaraTranslator id
          NewAksaraTranslator.complexConsonantRules "ka").toOption.getD "") :=
  ⟨List.Perm.refl _, by decide,
    ((translateLatinToJavanese_digraph id NewAksaraTranslator.complexConsonantRules
      (List.Perm.refl _)).1 "ng" "ꦔ" (by decide) "ka" "ka").2⟩

/-! ## Letters, pass-through, round trip -/

theorem latin_lookup_some (c : Char) (h : 97 ≤ c.toNat ∧ c.toNat ≤ 122) :
    ∃ v, NewAksaraTranslator.latinToJavanese.lookup (runeToString c) = some v := by
  have hc : c = Char.ofNat c.toNat := (Char.ofNat_toNat c).symm
  obtain ⟨h1, h2⟩ := h
  generalize c.toNat = n at hc h1 h2
  subst hc
  interval_cases n <;> exact ⟨_, by rfl⟩

theorem not_special_of_letter (c : Char) (h : 97 ≤ c.toNat ∧ c.toNat ≤ 122) :
    ¬ (c = '(' ∨ c = ')' ∨ c = '[' ∨ c = ']' ∨ c = '.' ∨ c = ',') := by
  rintro (e | e | e | e | e | e) <;> · subst e; revert h; decide

theorem translateChar_of_lookup (t : AksaraTranslator) (c : Char) (v : String)
    (h : t.latinToJavanese.lookup (runeToString c) = some v) : translateChar t c = v := by
  simp [translateChar, h]

theorem foldl_append_string (l : List String) (acc : String) :
    l.foldl (fun r s => r ++ s) acc = acc ++ l.foldl (fun r s => r ++ s) "" := by
  induction l generalizing acc with
  | nil => simp
  | cons v rest ih =>
    rw [List.foldl_cons, List.foldl_cons, ih (acc ++ v), ih ("" ++ v), String.empty_append,
      String.append_assoc]

theorem join_cons (v : String) (parts : List String) :
    String.join (v :: parts) = v ++ String.join parts := by
  unfold String.join
  rw [List.foldl_cons, foldl_append_string, String.empty_append]

theorem scanRunes_letters (l : List Char) (hl : ∀ c ∈ l, 97 ≤ c.toNat ∧ c.toNat ≤ 122)
    (hc : List.Chain' (fun x y => (⟨[x, y]⟩ : String) ∉ ["ng", "ny", "th", "dh"]) l) :
    ∃ parts : List String,
      List.Forall₂ (fun c v =>
        NewAksaraTranslator.latinToJavanese.lookup (runeToString c) = some v) l parts ∧
      scanRunes NewAksaraTranslator l = String.join parts := by
  induction l with
  | nil => exact ⟨[], List.Forall₂.nil, rfl⟩
  | cons c rest ih =>
    obtain ⟨parts, hparts, hscan⟩ :=
      ih (fun d hd => hl d (List.mem_cons_of_mem _ hd)) hc.tail
    obtain ⟨v, hv⟩ := latin_lookup_some c (hl c (List.mem_cons_self _ _))
    refine ⟨v :: parts, List.Forall₂.cons hv hparts, ?_⟩
    have hsp := special_lookup_none c (not_special_of_letter c (hl c (List.mem_cons_self _ _)))
    rw [scanRunes_cons_single _ _ _ hsp, translateChar_of_lookup _ _ _ hv, hscan, join_cons]
    · intro b hb
      cases hp : NewAksaraTranslator.complexConsonantRules.lookup ⟨[c, b]⟩ with
      | none => rfl
      | some w =>
        exfalso
        have hmem := lookup_mem _ _ _ hp
        have hrel : (⟨[c, b]⟩ : String) ∉ ["ng", "ny", "th", "dh"] := by
          cases rest with
          | nil => simp at hb
          | cons b' rest' =>
            simp only [List.head?_cons, Option.some.injEq] at hb
            subst hb
            exact (List.chain'_cons.mp hc).1
        apply hrel
        have hk : (⟨[c, b]⟩ : String) ∈ NewAksaraTranslator.complexConsonantRules.keys :=
          List.mem_map_of_mem Prod.fst hmem
        exact hk

/-- C8: on a non-empty input of lower-case letters `a..z` in which no two adjacent
letters form a digraph, `TranslateLatinToJavanese` returns the concatenation, in
order, of the base mapping of each letter; "kanca" gives the mappings of `k`, `a`,
`n`, `c`, `a`. -/
theorem translateLatinToJavanese_letters (caseTable : Char → Char) (order : Table)
    (horder : order.Perm NewAksaraTranslator.complexConsonantRules) :
    (∀ s : String, s ≠ "" →
      (∀ c ∈ s.data, 'a'.toNat ≤ c.toNat ∧ c.toNat ≤ 'z'.toNat) →
      List.Chain' (fun x y => (⟨[x, y]⟩ : String) ∉ ["ng", "ny", "th", "dh"]) s.data →
      ∃ parts : List String,
        List.Forall₂ (fun c v =>
          NewAksaraTranslator.latinToJavanese.lookup (runeToString c) = some v) s.data parts ∧
        TranslateLatinToJavanese NewAksaraTranslator caseTable order s =
          .ok (String.join parts)) ∧
    TranslateLatinToJavanese NewAksaraTranslator caseTable order "kanca" = .ok "ꦏꦲꦤꦕꦲ" ∧
    NewAksaraTranslator.latinToJavanese.lookup "k" = some "ꦏ" ∧
    NewAksaraTranslator.latinToJavanese.lookup "a" = some "ꦲ" ∧
    NewAksaraTranslator.latinToJavanese.lookup "n" = some "ꦤ" ∧
    NewAksaraTranslator.latinToJavanese.lookup "c" = some "ꦕ" ∧
    "ꦏꦲꦤꦕꦲ" = String.join ["ꦏ", "ꦲ", "ꦤ", "ꦕ", "ꦲ"] := by
  refine ⟨?_, ?_, by decide, by decide, by decide, by decide, by decide⟩
  · intro s hs hl hc
    have ha : 'a'.toNat = 97 := by decide
    have hz : 'z'.toNat = 122 := by decide
    rw [ha, hz] at hl
    have hlow : s.data.map (unicodeToLower caseTable) = s.data := by
      rw [List.map_congr_left (fun c hcm => unicodeToLower_of_lower caseTable c (hl c hcm)),
        List.map_id']
    obtain ⟨parts, hparts, hscan⟩ := scanRunes_letters s.data hl hc
    refine ⟨parts, hparts, ?_⟩
    rw [translateLatinToJavanese_eq_scan caseTable order horder s hs, hlow, hscan]
  · rw [translateLatinToJavanese_eq_scan caseTable order horder _ (by decide)]
    rfl

/-- C8 at the identity case table, the source order of the rules and the input
"kanca". -/
theorem translateLatinToJavanese_letters_witness :
    NewAksaraTranslator.complexConsonantRules.Perm NewAksaraTranslator.complexConsonantRules ∧
    "kanca" ≠ "" ∧
    (∀ c ∈ "kanca".data, 'a'.toNat ≤ c.toNat ∧ c.toNat ≤ 'z'.toNat) ∧
    List.Chain' (fun x y => (⟨[x, y]⟩ : String) ∉ ["ng", "ny", "th", "dh"]) "kanca".data ∧
    ∃ parts : List String,
      List.Forall₂ (fun c v =>
        NewAksaraTranslator.latinToJavanese.lookup (runeToString c) = some v)
        "kanca".data parts ∧
      TranslateLatinToJavanese NewAksaraTranslator id NewAksaraTranslator.complexConsonantRules
        "kanca" = .ok (String.join parts) :=
  ⟨List.Perm.refl _, by decide, by decide, by simp [String.ext_iff],
    (translateLatinToJavanese_letters id NewAksaraTranslator.complexConsonantRules
      (List.Perm.refl _)).1 "kanca" (by decide) (by decide) (by simp [String.ext_iff])⟩

theorem scanRunes_unmapped (l : List Char)
    (hl : ∀ c ∈ l, ¬ (97 ≤ c.toNat ∧ c.toNat ≤ 122) ∧
      ¬ (c = '(' ∨ c = ')' ∨ c = '[' ∨ c = ']' ∨ c = '.' ∨ c = ',')) :
    scanRunes NewAksaraTranslator l = ⟨l⟩ := by
  induction l with
  | nil => rfl
  | cons c rest ih =>
    obtain ⟨h1, h2⟩ := hl c (List.mem_cons_self _ _)
    have hnl : ¬ (c = 'n' ∨ c = 't' ∨ c = 'd') := by
      rintro (e | e | e) <;> · subst e; revert h1; decide
    rw [scanRunes_cons_single _ _ _ (special_lookup_none c h2)
      (fun b _ => pair_lookup_none_left c b hnl), translateChar_of_not_letter c h1,
      ih (fun d hd => hl d (List.mem_cons_of_mem _ hd))]
    rfl

/-- C9: unmapped symbols are never dropped.  When the lower-cased form of a
non-empty input holds no letter `a..z` and none of `( ) [ ] . ,`, the result is
that lower-cased form; when the case table leaves the Javanese block alone, an
input of digits, spaces and runes of U+A980..U+A9DF is returned unchanged. -/
theorem translateLatinToJavanese_unmapped (caseTable : Char → Char) (order : Table)
    (horder : order.Perm NewAksaraTranslator.complexConsonantRules) :
    (∀ s : String, s ≠ "" →
      (∀ c ∈ (stringsToLower caseTable s).data,
        ¬ ('a'.toNat ≤ c.toNat ∧ c.toNat ≤ 'z'.toNat) ∧ c ∉ ['(', ')', '[', ']', '.', ',']) →
      TranslateLatinToJavanese NewAksaraTranslator caseTable order s =
        .ok (stringsToLower caseTable s)) ∧
    ((∀ c : Char, 0xA980 ≤ c.toNat ∧ c.toNat ≤ 0xA9DF → caseTable c = c) →
      ∀ s : String, s ≠ "" →
        (∀ c ∈ s.data, ('0'.toNat ≤ c.toNat ∧ c.toNat ≤ '9'.toNat) ∨ c = ' ' ∨
          (0xA980 ≤ c.toNat ∧ c.toNat ≤ 0xA9DF)) →
        TranslateLatinToJavanese NewAksaraTranslator caseTable order s = .ok s) := by
  have ha : 'a'.toNat = 97 := by decide
  have hz : 'z'.toNat = 122 := by decide
  have main : ∀ s : String, s ≠ "" →
      (∀ c ∈ (stringsToLower caseTable s).data,
        ¬ ('a'.toNat ≤ c.toNat ∧ c.toNat ≤ 'z'.toNat) ∧ c ∉ ['(', ')', '[', ']', '.', ',']) →
      TranslateLatinToJavanese NewAksaraTranslator caseTable order s =
        .ok (stringsToLower caseTable s) := by
    intro s hs hl
    rw [translateLatinToJavanese_eq_scan caseTable order horder s hs, scanRunes_unmapped]
    · rfl
    · intro c hc
      obtain ⟨h1, h2⟩ := hl c hc
      rw [ha, hz] at h1
      refine ⟨h1, ?_⟩
      simpa using h2
  refine ⟨main, ?_⟩
  intro hcase s hs hl
  have h0 : '0'.toNat = 48 := by decide
  have h9 : '9'.toNat = 57 := by decide
  have hsp : ' '.toNat = 32 := by decide
  have hA : 'A'.toNat = 65 := by decide
  have hZ : 'Z'.toNat = 90 := by decide
  have hfix : ∀ c ∈ s.data, unicodeToLower caseTable c = c := by
    intro c hc
    unfold unicodeToLower
    rcases hl c hc with h | h | h
    · rw [if_pos (by omega), if_neg (by omega)]
    · subst h
      rw [if_pos (by omega), if_neg (by omega)]
    · rw [if_neg (by omega)]
      exact hcase c h
  have hlow : stringsToLower caseTable s = s := by
    unfold stringsToLower
    rw [List.map_congr_left hfix, List.map_id']
  have := main s hs (by
    rw [hlow]
    intro c hc
    rw [ha, hz]
    rcases hl c hc with h | h | h
    · refine ⟨by omega, ?_⟩
      simp only [List.mem_cons, List.mem_singleton, List.not_mem_nil, or_false, not_or]
      refine ⟨?_, ?_, ?_, ?_, ?_, ?_⟩ <;> · intro e; subst e; revert h; decide
    · subst h
      decide
    · refine ⟨by omega, ?_⟩
      simp only [List.mem_cons, List.mem_singleton, List.not_mem_nil, or_false, not_or]
      refine ⟨?_, ?_, ?_, ?_, ?_, ?_⟩ <;> · intro e; subst e; revert h; decide)
  rw [this, hlow]

/-- C9 at the identity case table, the source order of the rules and the input
"7 ꦏ" (a digit, a space, U+A98F). -/
theorem translateLatinToJavanese_unmapped_witness :
    NewAksaraTranslator.complexConsonantRules.Perm NewAksaraTranslator.complexConsonantRules ∧
    (∀ c : Char, 0xA980 ≤ c.toNat ∧ c.toNat ≤ 0xA9DF → id c = c) ∧
    "7 ꦏ" ≠ "" ∧
    (∀ c ∈ "7 ꦏ".data, ('0'.toNat ≤ c.toNat ∧ c.toNat ≤ '9'.toNat) ∨ c = ' ' ∨
      (0xA980 ≤ c.toNat ∧ c.toNat ≤ 0xA9DF)) ∧
    TranslateLatinToJavanese NewAksaraTranslator id NewAksaraTranslator.complexConsonantRules
      "7 ꦏ" = .ok "7 ꦏ" :=
  ⟨List.Perm.refl _, fun _ _ => rfl, by decide, by decide,
    (translateLatinToJavanese_unmapped id NewAksaraTranslator.complexConsonantRules
      (List.Perm.refl _)).2 (fun _ _ => rfl) "7 ꦏ" (by decide) (by decide)⟩

theorem append_ne_empty (a b : String) (h : a ≠ "") : a ++ b ≠ "" := by
  intro hab
  apply h
  have := congrArg String.data hab
  rw [String.data_append] at this
  apply String.ext
  exact (List.append_eq_nil.mp this).1

theorem lookup_ne_empty (m : Table) (hm : ∀ p ∈ m, p.2 ≠ "") (k v : String)
    (h : m.lookup k = some v) : v ≠ "" :=
  hm (k, v) (lookup_mem m k v h)

theorem runeToString_ne_empty (c : Char) : runeToString c ≠ "" := by
  simp [runeToString, String.ext_iff]

theorem translateChar_ne_empty (c : Char) : translateChar NewAksaraTranslator c ≠ "" := by
  unfold translateChar
  cases h1 : NewAksaraTranslator.latinToJavanese.lookup (runeToString c) with
  | some v => exact lookup_ne_empty _ (by decide) _ _ h1
  | none =>
    cases h2 : NewAksaraTranslator.vowelDiacritics.lookup (runeToString c) with
    | some v => exact lookup_ne_empty _ (by decide) _ _ h2
    | none => exact runeToString_ne_empty c

theorem scanRunes_ne_empty (l : List Char) (hl : l ≠ []) :
    scanRunes NewAksaraTranslator l ≠ "" := by
  cases l with
  | nil => exact absurd rfl hl
  | cons c rest =>
    cases hsp : NewAksaraTranslator.specialCharacters.lookup (runeToString c) with
    | some sp =>
      rw [scanRunes_cons_special _ _ _ _ hsp]
      exact append_ne_empty _ _ (lookup_ne_empty _ (by decide) _ _ hsp)
    | none =>
      cases rest with
      | nil =>
        rw [scanRunes_cons_single _ _ _ hsp (by simp)]
        exact append_ne_empty _ _ (translateChar_ne_empty c)
      | cons b rest =>
        cases hp : NewAksaraTranslator.complexConsonantRules.lookup ⟨[c, b]⟩ with
        | some w =>
          rw [scanRunes_cons_pair _ _ _ _ _ hsp hp]
          exact append_ne_empty _ _ (lookup_ne_empty _ (by decide) _ _ hp)
        | none =>
          rw [scanRunes_cons_single _ _ _ hsp (by
            intro b' hb'
            simp only [List.head?_cons, Option.some.injEq] at hb'
            subst hb'
            exact hp)]
          exact append_ne_empty _ _ (translateChar_ne_empty c)

theorem translateByte_ne_empty (b : Nat) : translateByte NewAksaraTranslator b ≠ "" := by
  unfold translateByte
  cases h1 : NewAksaraTranslator.javaneseToLatin.lookup (byteToString b) with
  | some v => exact lookup_ne_empty _ (by decide) _ _ h1
  | none => simp [byteToString, String.ext_iff]

theorem scanBytes_ne_empty (l : List Nat) (hl : l ≠ []) :
    scanBytes NewAksaraTranslator l ≠ "" := by
  cases l with
  | nil => exact absurd rfl hl
  | cons b rest =>
    cases rest with
    | nil =>
      rw [scanBytes]
      exact translateByte_ne_empty b
    | cons b2 rest =>
      rw [scanBytes]
      cases hp : NewAksaraTranslator.complexJavaneseRules.lookup
          (byteToString b ++ byteToString b2) with
      | some w => exact append_ne_empty _ _ (lookup_ne_empty _ (by decide) _ _ hp)
      | none => exact append_ne_empty _ _ (translateByte_ne_empty b)

theorem utf8EncodeRune_ne_nil (c : Char) : utf8EncodeRune c ≠ [] := by
  unfold utf8EncodeRune
  simp only
  split_ifs <;> simp

theorem stringBytes_ne_nil (s : String) (hs : s ≠ "") : stringBytes s ≠ [] := by
  obtain ⟨l⟩ := s
  cases l with
  | nil => exact absurd rfl hs
  | cons c rest =>
    have h := utf8EncodeRune_ne_nil c
    simp [stringBytes, List.flatMap, h]

/-- C10: round-trip weak law.  On a non-empty input `TranslateLatinToJavanese`
succeeds with a non-empty text, on which `TranslateJavaneseToLatin` succeeds with a
non-empty text. -/
theorem roundTrip_nonempty (caseTable : Char → Char) (order : Table)
    (horder : order.Perm NewAksaraTranslator.complexConsonantRules) (s : String)
    (hs : s ≠ "") :
    ∃ j : String,
      TranslateLatinToJavanese NewAksaraTranslator caseTable order s = .ok j ∧ j ≠ "" ∧
      ∃ r : String, TranslateJavaneseToLatin NewAksaraTranslator j = .ok r ∧ r ≠ "" := by
  have hdata : s.data ≠ [] := fun h => hs (String.ext h)
  have hj : scanRunes NewAksaraTranslator (s.data.map (unicodeToLower caseTable)) ≠ "" :=
    scanRunes_ne_empty _ (by simpa using hdata)
  refine ⟨_, translateLatinToJavanese_eq_scan caseTable order horder s hs, hj, ?_⟩
  refine ⟨_, translateJavaneseToLatin_ne_empty _ _ hj, ?_⟩
  cases hl : NewAksaraTranslator.complexJavaneseRules.lookup
      (scanRunes NewAksaraTranslator (s.data.map (unicodeToLower caseTable))) with
  | some v => exact lookup_ne_empty _ (by decide) _ _ hl
  | none => exact scanBytes_ne_empty _ (stringBytes_ne_nil _ hj)

/-- C10 at the identity case table, the source order of the rules and the input
"kanca". -/
theorem roundTrip_nonempty_witness :
    NewAksaraTranslator.complexConsonantRules.Perm NewAksaraTranslator.complexConsonantRules ∧
    "kanca" ≠ "" ∧
    ∃ j : String,
      TranslateLatinToJavanese NewAksaraTranslator id NewAksaraTranslator.complexConsonantRules
        "kanca" = .ok j ∧ j ≠ "" ∧
      ∃ r : String, TranslateJavaneseToLatin NewAksaraTranslator j = .ok r ∧ r ≠ "" :=
  ⟨List.Perm.refl _, by decide,
    roundTrip_nonempty id NewAksaraTranslator.complexConsonantRules (List.Perm.refl _)
      "kanca" (by decide)⟩

/-! ## The reverse direction on table keys -/

/-- C11: on the key U+A98F of the base Javanese-to-Latin table, whose value is
"k", `TranslateJavaneseToLatin` returns the three bytes EA A6 8F of the key as the
runes U+00EA U+00A6 U+008F; on no one-rune key of that table does it return the
value of the key. -/
theorem translateJavaneseToLatin_base_key :
    NewAksaraTranslator.javaneseToLatin.lookup "ꦏ" = some "k" ∧
    "ꦏ".data.map Char.toNat = [0xA98F] ∧
    stringBytes "ꦏ" = [0xEA, 0xA6, 0x8F] ∧
    TranslateJavaneseToLatin NewAksaraTranslator "ꦏ" =
      .ok ⟨[Char.ofNat 0xEA, Char.ofNat 0xA6, Char.ofNat 0x8F]⟩ ∧
    TranslateJavaneseToLatin NewAksaraTranslator "ꦏ" ≠ .ok "k" ∧
    ∀ p ∈ NewAksaraTranslator.javaneseToLatin, p.1.length = 1 →
      (TranslateJavaneseToLatin NewAksaraTranslator p.1).toOption ≠ some p.2 := by
  refine ⟨by decide, by decide, by decide, by rfl, ?_, by decide⟩
  intro h
  have h2 := congrArg Except.toOption h
  revert h2
  decide

/-- C12: the whole-string shortcut.  On each key of the compound Javanese-rule
table `TranslateJavaneseToLatin` returns the value of the key, with no error; the
table maps its eight keys to `i`, `u`, `e`, `o`, `ng`, `ny`, `th`, `dh`. -/
theorem translateJavaneseToLatin_compound_key :
    (∀ p ∈ NewAksaraTranslator.complexJavaneseRules,
      TranslateJavaneseToLatin NewAksaraTranslator p.1 = .ok p.2) ∧
    NewAksaraTranslator.complexJavaneseRules =
      [("ꦲꦶ", "i"), ("ꦲꦸ", "u"), ("ꦲꦺ", "e"), ("ꦲꦺꦴ", "o"),
       ("ꦔ", "ng"), ("ꦚ", "ny"), ("ꦛ", "th"), ("ꦝ", "dh")] := by
  refine ⟨?_, rfl⟩
  intro p hp
  simp only [NewAksaraTranslator, List.mem_cons, List.mem_singleton, List.not_mem_nil,
    or_false] at hp
  rcases hp with h | h | h | h | h | h | h | h <;> · subst h; rfl

/-- C15, as stated, fails: the compound Javanese-rule table has keys of one rune
and a key of three, and the Javanese-to-Latin table has keys of two runes. -/
theorem table_key_lengths_not_uniform :
    ¬ ((∀ k ∈ NewAksaraTranslator.complexConsonantRules.keys, k.length = 2) ∧
       (∀ k ∈ NewAksaraTranslator.complexJavaneseRules.keys, k.length = 2) ∧
       (∀ k ∈ NewAksaraTranslator.latinToJavanese.keys, k.length = 1) ∧
       (∀ k ∈ NewAksaraTranslator.javaneseToLatin.keys, k.length = 1)) := by
  decide

/-- C15, amended: every key of the Latin digraph table is two runes long and every
key of the Latin-to-Javanese table is one rune long; the keys of the compound
Javanese-rule table are one, two or three runes long, and the keys of the
Javanese-to-Latin table are one or two runes long. -/
theorem table_key_lengths :
    (∀ k ∈ NewAksaraTranslator.complexConsonantRules.keys, k.length = 2) ∧
    (∀ k ∈ NewAksaraTranslator.latinToJavanese.keys, k.length = 1) ∧
    NewAksaraTranslator.complexJavaneseRules.keys.map String.length =
      [2, 2, 2, 3, 1, 1, 1, 1] ∧
    NewAksaraTranslator.javaneseToLatin.keys.map String.length =
      [1, 1, 1, 1, 1, 2, 1, 2, 1, 1, 1, 1, 1, 1, 2, 1, 1, 1, 1, 1, 1, 2, 1, 1, 1, 2] := by
  decide

/-! ## Punctuation and case -/

theorem scanRunes_special_between (c : Char) (g : String)
    (hsp : NewAksaraTranslator.specialCharacters.lookup (runeToString c) = some g)
    (u v : List Char) :
    scanRunes NewAksaraTranslator (u ++ c :: v) =
      scanRunes NewAksaraTranslator u ++ g ++ scanRunes NewAksaraTranslator v := by
  have hc := special_lookup c g hsp
  have hsnd : ¬ (c = 'g' ∨ c = 'y' ∨ c = 'h') := by
    rcases hc with h | h | h | h | h | h <;> · subst h; decide
  rw [scanRunes_append u (c :: v) (by
      intro b hb
      simp only [List.head?_cons, Option.some.injEq] at hb
      subst hb
      exact hsnd),
    scanRunes_cons_special _ _ _ _ hsp, String.append_assoc]

theorem unicodeToLower_of_special (caseTable : Char → Char) (c : Char)
    (hc : c = '(' ∨ c = ')' ∨ c = '[' ∨ c = ']' ∨ c = '.' ∨ c = ',') :
    unicodeToLower caseTable c = c := by
  rcases hc with h | h | h | h | h | h <;> · subst h; rfl

/-- C14: punctuation mapping.  The special-character table sends `(`, `)`, `[` and
`]` to U+A9C0, `.` to U+A9C1 and `,` to U+A9C2; a punctuation rune `p` with glyph
`g` between any texts `a` and `b` consumes one rune: the translation of
`a ++ p ++ b` is the translation of `a`, then `g`, then the translation of `b`;
"(a)" translates to U+A9C0 U+A9B2 U+A9C0. -/
theorem translateLatinToJavanese_punctuation (caseTable : Char → Char) (order : Table)
    (horder : order.Perm NewAksaraTranslator.complexConsonantRules) :
    NewAksaraTranslator.specialCharacters =
      [("(", "꧀"), (")", "꧀"), ("[", "꧀"), ("]", "꧀"), (".", "꧁"), (",", "꧂")] ∧
    ("꧀".data.map Char.toNat = [0xA9C0] ∧ "꧁".data.map Char.toNat = [0xA9C1] ∧
      "꧂".data.map Char.toNat = [0xA9C2]) ∧
    (∀ p g : String, (p, g) ∈ NewAksaraTranslator.specialCharacters →
      ∀ a b : String,
        p.length = 1 ∧
        TranslateLatinToJavanese NewAksaraTranslator caseTable order (a ++ p ++ b) =
          .ok ((TranslateLatinToJavanese NewAksaraTranslator caseTable order a).toOption.getD ""
            ++ g ++
            (TranslateLatinToJavanese NewAksaraTranslator caseTable order b).toOption.getD "")) ∧
    TranslateLatinToJavanese NewAksaraTranslator caseTable order "(a)" = .ok "꧀ꦲ꧀" ∧
    "꧀ꦲ꧀".data.map Char.toNat = [0xA9C0, 0xA9B2, 0xA9C0] := by
  refine ⟨rfl, by decide, ?_, ?_, by decide⟩
  · intro p g hp a b
    have hshape : ∃ c : Char, p = runeToString c ∧
        NewAksaraTranslator.specialCharacters.lookup (runeToString c) = some g := by
      simp only [NewAksaraTranslator, List.mem_cons, List.mem_singleton, List.not_mem_nil,
        or_false, Prod.mk.injEq] at hp
      rcases hp with ⟨h1, h2⟩ | ⟨h1, h2⟩ | ⟨h1, h2⟩ | ⟨h1, h2⟩ | ⟨h1, h2⟩ | ⟨h1, h2⟩
      · exact ⟨'(', h1, by rw [h2]; rfl⟩
      · exact ⟨')', h1, by rw [h2]; rfl⟩
      · exact ⟨'[', h1, by rw [h2]; rfl⟩
      · exact ⟨']', h1, by rw [h2]; rfl⟩
      · exact ⟨'.', h1, by rw [h2]; rfl⟩
      · exact ⟨',', h1, by rw [h2]; rfl⟩
    obtain ⟨c, rfl, hsp⟩ := hshape
    refine ⟨rfl, ?_⟩
    have hne : a ++ runeToString c ++ b ≠ "" := by
      simp [runeToString, String.ext_iff]
    have hlow := unicodeToLower_of_special caseTable c (special_lookup c g hsp)
    rw [translateLatinToJavanese_eq_scan caseTable order horder _ hne,
      translationOf_eq_scan caseTable order horder, translationOf_eq_scan caseTable order horder]
    simp only [runeToString, String.data_append, List.map_append, List.map_cons, List.map_nil,
      hlow, List.append_assoc, List.singleton_append]
    rw [scanRunes_special_between c g hsp]
  · rw [translateLatinToJavanese_eq_scan caseTable order horder _ (by decide)]
    rfl

/-- C14 at the identity case table, the source order of the rules and the text
"k.a". -/
theorem translateLatinToJavanese_punctuation_witness :
    NewAksaraTranslator.complexConsonantRules.Perm NewAksaraTranslator.complexConsonantRules ∧
    (".", "꧁") ∈ NewAksaraTranslator.specialCharacters ∧
    TranslateLatinToJavanese NewAksaraTranslator id NewAksaraTranslator.complexConsonantRules
        ("k" ++ "." ++ "a") =
      .ok ((TranslateLatinToJavanese NewAksaraTranslator id
          NewAksaraTranslator.complexConsonantRules "k").toOption.getD "" ++ "꧁" ++
        (TranslateLatinToJavanese NewAksaraTranslator id
          NewAksaraTranslator.complexConsonantRules "a").toOption.getD "") :=
  ⟨List.Perm.refl _, by decide,
    ((translateLatinToJavanese_punctuation id NewAksaraTranslator.complexConsonantRules
      (List.Perm.refl _)).2.2.1 "." "꧁" (by decide) "k" "a").2⟩

/-! ## The byte scan of `TranslateJavaneseToLatin` -/

theorem toNat_ofNat_of_lt (b : Nat) (h : b < 0xD800) : (Char.ofNat b).toNat = b := by
  have hv : b.isValidChar := Or.inl h
  simp only [Char.ofNat, hv, dite_true, Char.ofNatAux, Char.toNat]
  rfl

theorem char_toNat_lt (c : Char) : c.toNat < 0x110000 := by
  have := c.valid
  simp [UInt32.isValidChar, Nat.isValidChar] at this
  simp [Char.toNat]
  omega

theorem utf8EncodeRune_lt (c : Char) : ∀ b ∈ utf8EncodeRune c, b < 0x100 := by
  have hc := char_toNat_lt c
  unfold utf8EncodeRune
  simp only
  split_ifs <;> simp <;> omega

theorem stringBytes_lt (s : String) : ∀ b ∈ stringBytes s, b < 0x100 := by
  intro b hb
  simp only [stringBytes, List.mem_flatMap] at hb
  obtain ⟨c, _, hbc⟩ := hb
  exact utf8EncodeRune_lt c b hbc

theorem javanese_keys_in_block :
    ∀ k ∈ NewAksaraTranslator.complexJavaneseRules.keys ++
        NewAksaraTranslator.javaneseToLatin.keys,
      ∀ c ∈ k.data, 0xA980 ≤ c.toNat ∧ c.toNat ≤ 0xA9DF := by
  decide

theorem lookup_mem_keys (m : Table) (k v : String) (h : m.lookup k = some v) : k ∈ m.keys :=
  List.mem_map_of_mem Prod.fst (lookup_mem m k v h)

/-- A text that starts with a rune below U+0100 is no key of the two tables with
Javanese keys. -/
theorem javanese_lookup_none (b : Nat) (hb : b < 0x100) (rest : List Char) :
    NewAksaraTranslator.complexJavaneseRules.lookup ⟨Char.ofNat b :: rest⟩ = none ∧
    NewAksaraTranslator.javaneseToLatin.lookup ⟨Char.ofNat b :: rest⟩ = none := by
  have key : ∀ k ∈ NewAksaraTranslator.complexJavaneseRules.keys ++
      NewAksaraTranslator.javaneseToLatin.keys, k ≠ ⟨Char.ofNat b :: rest⟩ := by
    intro k hk e
    have h := javanese_keys_in_block k hk (Char.ofNat b) (by rw [e]; exact List.mem_cons_self _ _)
    rw [toNat_ofNat_of_lt b (by omega)] at h
    omega
  constructor
  · cases hl : NewAksaraTranslator.complexJavaneseRules.lookup ⟨Char.ofNat b :: rest⟩ with
    | none => rfl
    | some v => exact absurd rfl (key _ (List.mem_append_left _ (lookup_mem_keys _ _ _ hl)))
  · cases hl : NewAksaraTranslator.javaneseToLatin.lookup ⟨Char.ofNat b :: rest⟩ with
    | none => rfl
    | some v => exact absurd rfl (key _ (List.mem_append_right _ (lookup_mem_keys _ _ _ hl)))

theorem byteToString_append (b b2 : Nat) :
    byteToString b ++ byteToString b2 = ⟨[Char.ofNat b, Char.ofNat b2]⟩ := by
  apply String.ext
  simp [byteToString]

theorem translateByte_of_lt (b : Nat) (hb : b < 0x100) :
    translateByte NewAksaraTranslator b = byteToString b := by
  unfold translateByte
  rw [byteToString, (javanese_lookup_none b hb []).2]

theorem scanBytes_of_lt (l : List Nat) (hl : ∀ b ∈ l, b < 0x100) :
    scanBytes NewAksaraTranslator l = ⟨l.map Char.ofNat⟩ := by
  suffices H : ∀ l : List Nat, (∀ b ∈ l, b < 0x100) →
      (scanBytes NewAksaraTranslator l = ⟨l.map Char.ofNat⟩) ∧
      ∀ b, b < 0x100 → scanBytes NewAksaraTranslator (b :: l) = ⟨(b :: l).map Char.ofNat⟩
    from (H l hl).1
  intro l
  induction l with
  | nil =>
    intro _
    refine ⟨rfl, fun b hb => ?_⟩
    rw [scanBytes, translateByte_of_lt b hb]
    rfl
  | cons b2 rest ih =>
    intro hl
    have hb2 := hl b2 (List.mem_cons_self _ _)
    have ih' := ih (fun b hb => hl b (List.mem_cons_of_mem _ hb))
    refine ⟨ih'.2 b2 hb2, fun b hb => ?_⟩
    rw [scanBytes, byteToString_append, (javanese_lookup_none b hb _).1]
    simp only
    rw [translateByte_of_lt b hb, ih'.2 b2 hb2]
    rfl

theorem stringBytes_ascii (l : List Char) (hl : ∀ c ∈ l, c.toNat < 0x80) :
    (l.flatMap utf8EncodeRune).map Char.ofNat = l := by
  induction l with
  | nil => rfl
  | cons c rest ih =>
    have hc := hl c (List.mem_cons_self _ _)
    rw [List.flatMap_cons, List.map_append, ih (fun d hd => hl d (List.mem_cons_of_mem _ hd))]
    simp [utf8EncodeRune, hc]

/-- C18: the scan loop of `TranslateJavaneseToLatin` never finds a table entry.
Every key of the two tables with Javanese keys is made of code points in
U+A980..U+A9DF, every byte of a text is below 0x100, and no text made of one or
two bytes turned into runes is a key; so on a non-empty input that is no key of
the compound table the result is the bytes of the input in order, each as the rune
of the same value.  An ASCII input is returned unchanged, and the result on the
text U+A98F U+A99A U+A9C0 U+A995 holds no letter `a..z`. -/
theorem translateJavaneseToLatin_bytes :
    (∀ k ∈ NewAksaraTranslator.complexJavaneseRules.keys ++
        NewAksaraTranslator.javaneseToLatin.keys,
      ∀ c ∈ k.data, 0xA980 ≤ c.toNat ∧ c.toNat ≤ 0xA9DF) ∧
    (∀ s : String, ∀ b ∈ stringBytes s, b < 0x100) ∧
    (∀ b b2 : Nat, b < 0x100 → b2 < 0x100 →
      NewAksaraTranslator.complexJavaneseRules.lookup (byteToString b ++ byteToString b2) = none ∧
      NewAksaraTranslator.javaneseToLatin.lookup (byteToString b) = none) ∧
    (∀ s : String, s ≠ "" → s ∉ NewAksaraTranslator.complexJavaneseRules.keys →
      TranslateJavaneseToLatin NewAksaraTranslator s =
        .ok ⟨(stringBytes s).map Char.ofNat⟩) ∧
    (∀ s : String, s ≠ "" → (∀ c ∈ s.data, c.toNat < 0x80) →
      TranslateJavaneseToLatin NewAksaraTranslator s = .ok s) ∧
    TranslateJavaneseToLatin NewAksaraTranslator "ꦏꦚ꧀ꦕ" =
      .ok ⟨[0xEA, 0xA6, 0x8F, 0xEA, 0xA6, 0x9A, 0xEA, 0xA7, 0x80, 0xEA, 0xA6, 0x95].map
        Char.ofNat⟩ ∧
    (∀ c ∈ [0xEA, 0xA6, 0x8F, 0xEA, 0xA6, 0x9A, 0xEA, 0xA7, 0x80, 0xEA, 0xA6, 0x95].map
        Char.ofNat, ¬ ('a'.toNat ≤ c.toNat ∧ c.toNat ≤ 'z'.toNat)) := by
  have hscan : ∀ s : String, s ≠ "" →
      NewAksaraTranslator.complexJavaneseRules.lookup s = none →
      TranslateJavaneseToLatin NewAksaraTranslator s =
        .ok ⟨(stringBytes s).map Char.ofNat⟩ := by
    intro s hs hl
    rw [translateJavaneseToLatin_ne_empty _ _ hs, hl, Option.getD_none,
      scanBytes_of_lt _ (stringBytes_lt s)]
  refine ⟨javanese_keys_in_block, stringBytes_lt, ?_, ?_, ?_, by rfl, by decide⟩
  · intro b b2 hb _
    rw [byteToString_append]
    exact ⟨(javanese_lookup_none b hb _).1, (javanese_lookup_none b hb _).2⟩
  · intro s hs hk
    apply hscan s hs
    cases hl : NewAksaraTranslator.complexJavaneseRules.lookup s with
    | none => rfl
    | some v => exact absurd (lookup_mem_keys _ _ _ hl) hk
  · intro s hs hascii
    have hl : NewAksaraTranslator.complexJavaneseRules.lookup s = none := by
      cases hl : NewAksaraTranslator.complexJavaneseRules.lookup s with
      | none => rfl
      | some v =>
        exfalso
        obtain ⟨l⟩ := s
        cases l with
        | nil => exact hs rfl
        | cons c rest =>
          have h1 := javanese_keys_in_block _
            (List.mem_append_left _ (lookup_mem_keys _ _ _ hl)) c (List.mem_cons_self _ _)
          have h2 := hascii c (List.mem_cons_self _ _)
          omega
    rw [hscan s hs hl]
    unfold stringBytes
    rw [stringBytes_ascii s.data hascii]

/-! ## Case-insensitivity -/

theorem unicodeToLower_ascii_idem (caseTable : Char → Char) (c : Char)
    (hc : c.toNat ≤ 0x7F) :
    unicodeToLower caseTable (unicodeToLower caseTable c) = unicodeToLower caseTable c := by
  have hA : 'A'.toNat = 65 := by decide
  have hZ : 'Z'.toNat = 90 := by decide
  have ha : 'a'.toNat = 97 := by decide
  by_cases hu : 65 ≤ c.toNat ∧ c.toNat ≤ 90
  · have h1 : unicodeToLower caseTable c = Char.ofNat (c.toNat + 32) := by
      unfold unicodeToLower
      rw [if_pos hc, hA, hZ, ha, if_pos hu]
    have h2 : (Char.ofNat (c.toNat + 32)).toNat = c.toNat + 32 :=
      toNat_ofNat_of_lt _ (by omega)
    rw [h1]
    apply unicodeToLower_of_lower
    omega
  · have h1 : unicodeToLower caseTable c = c := by
      unfold unicodeToLower
      rw [if_pos hc, hA, hZ, if_neg hu]
    rw [h1, h1]

theorem stringsToLower_idem (caseTable : Char → Char)
    (hidem : ∀ c : Char, 0x7F < c.toNat →
      unicodeToLower caseTable (caseTable c) = caseTable c) (s : String) :
    stringsToLower caseTable (stringsToLower caseTable s) = stringsToLower caseTable s := by
  unfold stringsToLower
  simp only [List.map_map]
  congr 1
  apply List.map_congr_left
  intro c _
  by_cases hc : c.toNat ≤ 0x7F
  · exact unicodeToLower_ascii_idem caseTable c hc
  · have h1 : unicodeToLower caseTable c = caseTable c := by
      unfold unicodeToLower
      rw [if_neg hc]
    simp only [Function.comp_apply]
    rw [h1]
    exact hidem c (by omega)

theorem stringsToLower_eq_empty (caseTable : Char → Char) (s : String) :
    stringsToLower caseTable s = "" ↔ s = "" := by
  simp [stringsToLower, String.ext_iff]

/-- C13: `TranslateLatinToJavanese` is case-insensitive.  A text and its
lower-cased form have the same result and the same error, when lower-casing a rune
twice is lower-casing it once (for an ASCII rune this is so by the code of
`unicode.ToLower`; for any other rune it is the assumption on the case table).
"KANCA", "Kanca" and "kanca" translate alike, and "NG" translates to U+A994. -/
theorem translateLatinToJavanese_case_insensitive (caseTable : Char → Char)
    (order order' : Table)
    (horder : order.Perm NewAksaraTranslator.complexConsonantRules)
    (horder' : order'.Perm NewAksaraTranslator.complexConsonantRules)
    (hidem : ∀ c : Char, 0x7F < c.toNat →
      unicodeToLower caseTable (caseTable c) = caseTable c) :
    (∀ s : String,
      TranslateLatinToJavanese NewAksaraTranslator caseTable order s =
        TranslateLatinToJavanese NewAksaraTranslator caseTable order'
          (stringsToLower caseTable s)) ∧
    TranslateLatinToJavanese NewAksaraTranslator caseTable order "KANCA" =
      TranslateLatinToJavanese NewAksaraTranslator caseTable order "kanca" ∧
    TranslateLatinToJavanese NewAksaraTranslator caseTable order "Kanca" =
      TranslateLatinToJavanese NewAksaraTranslator caseTable order "kanca" ∧
    TranslateLatinToJavanese NewAksaraTranslator caseTable order "NG" = .ok "ꦔ" ∧
    "ꦔ".data.map Char.toNat = [0xA994] := by
  refine ⟨?_, ?_, ?_, ?_, by decide⟩
  · intro s
    by_cases hs : s = ""
    · subst hs
      rfl
    · have hs' : stringsToLower caseTable s ≠ "" :=
        fun h => hs ((stringsToLower_eq_empty caseTable s).mp h)
      rw [translateLatinToJavanese_eq_scan caseTable order horder s hs,
        translateLatinToJavanese_eq_scan caseTable order' horder' _ hs']
      have := congrArg String.data (stringsToLower_idem caseTable hidem s)
      simp only [stringsToLower] at this
      simp only [stringsToLower]
      rw [this]
  · rw [translateLatinToJavanese_eq_scan caseTable order horder _ (by decide),
      translateLatinToJavanese_eq_scan caseTable order horder _ (by decide)]
    rfl
  · rw [translateLatinToJavanese_eq_scan caseTable order horder _ (by decide),
      translateLatinToJavanese_eq_scan caseTable order horder _ (by decide)]
    rfl
  · rw [translateLatinToJavanese_eq_scan caseTable order horder _ (by decide)]
    rfl

/-- C13 at the identity case table, the source order of the rules and the text
"Ngoko". -/
theorem translateLatinToJavanese_case_insensitive_witness :
    NewAksaraTranslator.complexConsonantRules.Perm NewAksaraTranslator.complexConsonantRules ∧
    (∀ c : Char, 0x7F < c.toNat → unicodeToLower id (id c) = id c) ∧
    TranslateLatinToJavanese NewAksaraTranslator id NewAksaraTranslator.complexConsonantRules
        "Ngoko" =
      TranslateLatinToJavanese NewAksaraTranslator id NewAksaraTranslator.complexConsonantRules
        (stringsToLower id "Ngoko") :=
  ⟨List.Perm.refl _,
    fun c hc => by simp only [unicodeToLower, id, if_neg (Nat.not_le.mpr hc)],
    (translateLatinToJavanese_case_insensitive id NewAksaraTranslator.complexConsonantRules
      NewAksaraTranslator.complexConsonantRules (List.Perm.refl _) (List.Perm.refl _)
      (fun c hc => by simp only [unicodeToLower, id, if_neg (Nat.not_le.mpr hc)])).1 "Ngoko"⟩

/-! ## The vowel-diacritic table -/

theorem scanRunes_congr (t t' : AksaraTranslator)
    (h1 : t'.specialCharacters = t.specialCharacters)
    (h2 : t'.complexConsonantRules = t.complexConsonantRules)
    (h3 : ∀ c, translateChar t' c = translateChar t c) (l : List Char) :
    scanRunes t' l = scanRunes t l := by
  suffices H : ∀ l : List Char,
      (scanRunes t' l = scanRunes t l) ∧ ∀ c, scanRunes t' (c :: l) = scanRunes t (c :: l)
    from (H l).1
  intro l
  induction l with
  | nil =>
    refine ⟨rfl, fun c => ?_⟩
    simp only [scanRunes, h1, h3]
  | cons c2 rest ih =>
    refine ⟨ih.2 c2, fun c1 => ?_⟩
    simp only [scanRunes, h1, h2, h3, ih.1, ih.2 c2]

theorem translateChar_without_vowels (c : Char) :
    translateChar { NewAksaraTranslator with vowelDiacritics := [] } c =
      translateChar NewAksaraTranslator c := by
  unfold translateChar
  dsimp only
  cases h1 : NewAksaraTranslator.latinToJavanese.lookup (runeToString c) with
  | some v => rfl
  | none =>
    cases h2 : NewAksaraTranslator.vowelDiacritics.lookup (runeToString c) with
    | some v =>
      exfalso
      obtain ⟨w, hw⟩ := latin_lookup_some c (vowel_lookup c v h2)
      rw [h1] at hw
      exact Option.noConfusion hw
    | none => rfl

theorem count_eq_zero_of_toNat_lt (c j : Char) (h : c.toNat < j.toNat) (l : List Char) :
    (c :: l).count j = l.count j := by
  have hne : c ≠ j := by
    intro e
    subst e
    exact Nat.lt_irrefl _ h
  rw [List.count_cons_of_ne (Ne.symm hne)]

theorem translateChar_count (c : Char) :
    (translateChar NewAksaraTranslator c).data.count 'ꦄ' = [c].count 'ꦄ' := by
  by_cases hc : 97 ≤ c.toNat ∧ c.toNat ≤ 122
  · obtain ⟨v, hv⟩ := latin_lookup_some c hc
    have hv0 : ∀ p ∈ NewAksaraTranslator.latinToJavanese, p.2.data.count 'ꦄ' = 0 := by decide
    have hj : 'ꦄ'.toNat = 0xA984 := by decide
    rw [translateChar_of_lookup _ _ _ hv, hv0 _ (lookup_mem _ _ _ hv),
      count_eq_zero_of_toNat_lt c 'ꦄ' (by omega)]
    rfl
  · rw [translateChar_of_not_letter c hc]
    rfl

theorem scanRunes_count (l : List Char) :
    (scanRunes NewAksaraTranslator l).data.count 'ꦄ' = l.count 'ꦄ' := by
  have hj : 'ꦄ'.toNat = 0xA984 := by decide
  have hsp0 : ∀ p ∈ NewAksaraTranslator.specialCharacters, p.2.data.count 'ꦄ' = 0 := by
    decide
  have hcc0 : ∀ p ∈ NewAksaraTranslator.complexConsonantRules, p.2.data.count 'ꦄ' = 0 := by
    decide
  suffices H : ∀ l : List Char,
      ((scanRunes NewAksaraTranslator l).data.count 'ꦄ' = l.count 'ꦄ') ∧
      ∀ c, (scanRunes NewAksaraTranslator (c :: l)).data.count 'ꦄ' = (c :: l).count 'ꦄ'
    from (H l).1
  have hspecial : ∀ (c : Char) (sp : String) (tl : List Char),
      NewAksaraTranslator.specialCharacters.lookup (runeToString c) = some sp →
      (scanRunes NewAksaraTranslator tl).data.count 'ꦄ' = tl.count 'ꦄ' →
      (scanRunes NewAksaraTranslator (c :: tl)).data.count 'ꦄ' = (c :: tl).count 'ꦄ' := by
    intro c sp tl hsp ih
    have hc : c.toNat < 'ꦄ'.toNat := by
      rw [hj]
      rcases special_lookup c sp hsp with h | h | h | h | h | h <;> · subst h; decide
    rw [scanRunes_cons_special _ _ _ _ hsp, String.data_append, List.count_append,
      hsp0 _ (lookup_mem _ _ _ hsp), ih, count_eq_zero_of_toNat_lt c _ hc, Nat.zero_add]
  have hsingle : ∀ (c : Char) (tl : List Char),
      NewAksaraTranslator.specialCharacters.lookup (runeToString c) = none →
      (∀ b, tl.head? = some b →
        NewAksaraTranslator.complexConsonantRules.lookup ⟨[c, b]⟩ = none) →
      (scanRunes NewAksaraTranslator tl).data.count 'ꦄ' = tl.count 'ꦄ' →
      (scanRunes NewAksaraTranslator (c :: tl)).data.count 'ꦄ' = (c :: tl).count 'ꦄ' := by
    intro c tl hsp hp ih
    rw [scanRunes_cons_single _ _ _ hsp hp, String.data_append, List.count_append,
      translateChar_count, ih, ← List.count_append]
    rfl
  intro l
  induction l with
  | nil =>
    refine ⟨rfl, fun c => ?_⟩
    cases hsp : NewAksaraTranslator.specialCharacters.lookup (runeToString c) with
    | some sp => exact hspecial c sp [] hsp rfl
    | none => exact hsingle c [] hsp (by simp) rfl
  | cons c2 rest ih =>
    refine ⟨ih.2 c2, fun c1 => ?_⟩
    cases hsp : NewAksaraTranslator.specialCharacters.lookup (runeToString c1) with
    | some sp => exact hspecial c1 sp _ hsp (ih.2 c2)
    | none =>
      cases hp : NewAksaraTranslator.complexConsonantRules.lookup ⟨[c1, c2]⟩ with
      | some w =>
        obtain ⟨h1, h2⟩ := pair_lookup c1 c2 w hp
        have hc1 : c1.toNat < 'ꦄ'.toNat := by
          rw [hj]
          rcases h1 with h | h | h <;> · subst h; decide
        have hc2 : c2.toNat < 'ꦄ'.toNat := by
          rw [hj]
          rcases h2 with h | h | h <;> · subst h; decide
        rw [scanRunes_cons_pair _ _ _ _ _ hsp hp, String.data_append, List.count_append,
          hcc0 _ (lookup_mem _ _ _ hp), ih.1, count_eq_zero_of_toNat_lt c1 _ hc1,
          count_eq_zero_of_toNat_lt c2 _ hc2, Nat.zero_add]
      | none =>
        apply hsingle c1 _ hsp _ (ih.2 c2)
        intro b hb
        simp only [List.head?_cons, Option.some.injEq] at hb
        subst hb
        exact hp

/-- C19: the vowel-diacritic branch of `TranslateLatinToJavanese` is unreachable.
Every key of the vowel-diacritic table is a key of the Latin-to-Javanese table,
and every input gives the same result with the vowel-diacritic table emptied; "a"
translates to U+A9B2; the rune U+A984 occurs in a result as often as in the
lower-cased input, hence as often as in the input when the case table maps
U+A984, and no other rune, to U+A984. -/
theorem vowelDiacritics_unreachable (caseTable : Char → Char) (order : Table)
    (horder : order.Perm NewAksaraTranslator.complexConsonantRules) :
    NewAksaraTranslator.vowelDiacritics.keys = ["a", "i", "u", "e", "o"] ∧
    (∀ k ∈ NewAksaraTranslator.vowelDiacritics.keys,
      k ∈ NewAksaraTranslator.latinToJavanese.keys) ∧
    (∀ s : String,
      TranslateLatinToJavanese NewAksaraTranslator caseTable order s =
        TranslateLatinToJavanese { NewAksaraTranslator with vowelDiacritics := [] }
          caseTable order s) ∧
    TranslateLatinToJavanese NewAksaraTranslator caseTable order "a" = .ok "ꦲ" ∧
    ("ꦲ".data.map Char.toNat = [0xA9B2] ∧ 'ꦄ'.toNat = 0xA984) ∧
    (∀ s r : String, TranslateLatinToJavanese NewAksaraTranslator caseTable order s = .ok r →
      r.data.count 'ꦄ' = (stringsToLower caseTable s).data.count 'ꦄ') ∧
    ((∀ c : Char, 0x7F < c.toNat → (caseTable c = 'ꦄ' ↔ c = 'ꦄ')) →
      ∀ s r : String, TranslateLatinToJavanese NewAksaraTranslator caseTable order s = .ok r →
        r.data.count 'ꦄ' = s.data.count 'ꦄ') := by
  have hcount : ∀ s r : String,
      TranslateLatinToJavanese NewAksaraTranslator caseTable order s = .ok r →
      r.data.count 'ꦄ' = (stringsToLower caseTable s).data.count 'ꦄ' := by
    intro s r h
    by_cases hs : s = ""
    · subst hs
      simp [TranslateLatinToJavanese] at h
    · rw [translateLatinToJavanese_eq_scan caseTable order horder s hs] at h
      simp only [Except.ok.injEq] at h
      rw [← h, scanRunes_count]
      rfl
  refine ⟨by decide, by decide, ?_, ?_, by decide, hcount, ?_⟩
  · intro s
    unfold TranslateLatinToJavanese
    by_cases hs : s = ""
    · rw [if_pos hs, if_pos hs]
    · rw [if_neg hs, if_neg hs]
      have key := scanRunes_congr NewAksaraTranslator
        { NewAksaraTranslator with vowelDiacritics := [] } rfl rfl
        translateChar_without_vowels
        (preprocessConsonants order (stringsToLower caseTable s)).data
      exact congrArg Except.ok key.symm
  · rw [translateLatinToJavanese_eq_scan caseTable order horder _ (by decide)]
    rfl
  · intro hcase s r h
    rw [hcount s r h]
    have hj : 'ꦄ'.toNat = 0xA984 := by decide
    have hiff : ∀ c : Char, (unicodeToLower caseTable c == 'ꦄ') = (c == 'ꦄ') := by
      intro c
      by_cases hc : c.toNat ≤ 0x7F
      · have h1 : unicodeToLower caseTable c ≠ 'ꦄ' := by
          intro e
          have hA : 'A'.toNat = 65 := by decide
          have hZ : 'Z'.toNat = 90 := by decide
          have ha : 'a'.toNat = 97 := by decide
          unfold unicodeToLower at e
          rw [if_pos hc, hA, hZ, ha] at e
          by_cases hu : 65 ≤ c.toNat ∧ c.toNat ≤ 90
          · rw [if_pos hu] at e
            have := congrArg Char.toNat e
            rw [toNat_ofNat_of_lt _ (by omega), hj] at this
            omega
          · rw [if_neg hu] at e
            have := congrArg Char.toNat e
            rw [hj] at this
            omega
        have h2 : c ≠ 'ꦄ' := by
          intro e
          have := congrArg Char.toNat e
          rw [hj] at this
          omega
        simp [h1, h2]
      · have h1 : unicodeToLower caseTable c = caseTable c := by
          unfold unicodeToLower
          rw [if_neg hc]
        rw [h1]
        have := hcase c (by omega)
        by_cases e : c = 'ꦄ'
        · rw [this.mpr e, e]
        · have e' : caseTable c ≠ 'ꦄ' := fun h => e (this.mp h)
          simp [e, e']
    simp only [stringsToLower, List.count, List.countP_map]
    congr 1
    funext c
    exact hiff c

/-- C19 at the identity case table, the source order of the rules and the text
"aku". -/
theorem vowelDiacritics_unreachable_witness :
    NewAksaraTranslator.complexConsonantRules.Perm NewAksaraTranslator.complexConsonantRules ∧
    TranslateLatinToJavanese NewAksaraTranslator id NewAksaraTranslator.complexConsonantRules
        "aku" =
      TranslateLatinToJavanese { NewAksaraTranslator with vowelDiacritics := [] } id
        NewAksaraTranslator.complexConsonantRules "aku" :=
  ⟨List.Perm.refl _,
    (vowelDiacritics_unreachable id NewAksaraTranslator.complexConsonantRules
      (List.Perm.refl _)).2.2.1 "aku"⟩

/-! ## The single-pass greedy scan -/

theorem greedySymbol_eq (c : Char) :
    greedySymbol NewAksaraTranslator c =
      match NewAksaraTranslator.specialCharacters.lookup (runeToString c) with
      | some special => special
      | none => translateChar NewAksaraTranslator c := by
  unfold greedySymbol translateChar
  cases NewAksaraTranslator.specialCharacters.lookup (runeToString c) with
  | some sp => rfl
  | none =>
    cases h1 : NewAksaraTranslator.latinToJavanese.lookup (runeToString c) with
    | some v => rfl
    | none =>
      cases h2 : NewAksaraTranslator.vowelDiacritics.lookup (runeToString c) with
      | some v =>
        exfalso
        obtain ⟨w, hw⟩ := latin_lookup_some c (vowel_lookup c v h2)
        rw [h1] at hw
        exact Option.noConfusion hw
      | none => rfl

theorem scanRunes_eq_greedyLongestMatch (l : List Char) :
    scanRunes NewAksaraTranslator l = greedyLongestMatch NewAksaraTranslator l := by
  suffices H : ∀ l : List Char,
      (scanRunes NewAksaraTranslator l = greedyLongestMatch NewAksaraTranslator l) ∧
      ∀ c, scanRunes NewAksaraTranslator (c :: l) =
        greedyLongestMatch NewAksaraTranslator (c :: l) from (H l).1
  intro l
  induction l with
  | nil =>
    refine ⟨rfl, fun c => ?_⟩
    rw [greedyLongestMatch, greedySymbol_eq, scanRunes]
  | cons c2 rest ih =>
    refine ⟨ih.2 c2, fun c1 => ?_⟩
    rw [greedyLongestMatch, greedySymbol_eq, scanRunes, runeToString_append]
    cases hsp : NewAksaraTranslator.specialCharacters.lookup (runeToString c1) with
    | some sp =>
      have hnl : ¬ (c1 = 'n' ∨ c1 = 't' ∨ c1 = 'd') := by
        rcases special_lookup c1 sp hsp with h | h | h | h | h | h <;> · subst h; decide
      rw [pair_lookup_none_left c1 c2 hnl]
      simp only
      rw [ih.2 c2]
    | none =>
      cases hp : NewAksaraTranslator.complexConsonantRules.lookup ⟨[c1, c2]⟩ with
      | some w =>
        simp only
        rw [ih.1]
      | none =>
        simp only
        rw [ih.2 c2]

/-- C17: the two-phase `TranslateLatinToJavanese` (whole-string digraph replacement,
then the scan) is the single-pass greedy longest-match scan.  On a non-empty input
the result is `greedyLongestMatch` of the lower-cased input: the digraph consonant
and an advance by two where a digraph starts, else the punctuation mapping, else
the base-letter mapping, else the rune unchanged, and an advance by one. -/
theorem translateLatinToJavanese_eq_greedy (caseTable : Char → Char) (order : Table)
    (horder : order.Perm NewAksaraTranslator.complexConsonantRules) (s : String)
    (hs : s ≠ "") :
    TranslateLatinToJavanese NewAksaraTranslator caseTable order s =
      .ok (greedyLongestMatch NewAksaraTranslator (stringsToLower caseTable s).data) := by
  rw [translateLatinToJavanese_eq_scan caseTable order horder s hs,
    scanRunes_eq_greedyLongestMatch]
  rfl

/-- C17 at the identity case table, the source order of the rules and the input
"Ngoko (a)". -/
theorem translateLatinToJavanese_eq_greedy_witness :
    NewAksaraTranslator.complexConsonantRules.Perm NewAksaraTranslator.complexConsonantRules ∧
    "Ngoko (a)" ≠ "" ∧
    TranslateLatinToJavanese NewAksaraTranslator id NewAksaraTranslator.complexConsonantRules
        "Ngoko (a)" =
      .ok (greedyLongestMatch NewAksaraTranslator (stringsToLower id "Ngoko (a)").data) :=
  ⟨List.Perm.refl _, by decide,
    translateLatinToJavanese_eq_greedy id NewAksaraTranslator.complexConsonantRules
      (List.Perm.refl _) "Ngoko (a)" (by decide)⟩

/-! ## Idempotence of `NormalizeText` -/

theorem unicodeIsSpace_iff (r : Char) :
    unicodeIsSpace r = true ↔
      ((0x09 ≤ r.toNat ∧ r.toNat ≤ 0x0D) ∨ r.toNat = 0x20 ∨ r.toNat = 0x85 ∨ r.toNat = 0xA0 ∨
        r.toNat = 0x1680 ∨ (0x2000 ≤ r.toNat ∧ r.toNat ≤ 0x200A) ∨ r.toNat = 0x2028 ∨
        r.toNat = 0x2029 ∨ r.toNat = 0x202F ∨ r.toNat = 0x205F ∨ r.toNat = 0x3000) := by
  simp only [unicodeIsSpace, Bool.or_eq_true, Bool.and_eq_true, decide_eq_true_eq]
  tauto

theorem unicodeToLower_ascii_cases (caseTable : Char → Char) (c : Char)
    (hc : c.toNat ≤ 0x7F) :
    unicodeToLower caseTable c = c ∨
      (97 ≤ (unicodeToLower caseTable c).toNat ∧ (unicodeToLower caseTable c).toNat ≤ 122) := by
  have hA : 'A'.toNat = 65 := by decide
  have hZ : 'Z'.toNat = 90 := by decide
  have ha : 'a'.toNat = 97 := by decide
  by_cases hu : 65 ≤ c.toNat ∧ c.toNat ≤ 90
  · right
    have h1 : unicodeToLower caseTable c = Char.ofNat (c.toNat + 32) := by
      unfold unicodeToLower
      rw [if_pos hc, hA, hZ, ha, if_pos hu]
    rw [h1, toNat_ofNat_of_lt _ (by omega)]
    omega
  · left
    unfold unicodeToLower
    rw [if_pos hc, hA, hZ, if_neg hu]

theorem unicodeToLower_of_not_ascii (caseTable : Char → Char) (c : Char)
    (hc : 0x7F < c.toNat) : unicodeToLower caseTable c = caseTable c := by
  unfold unicodeToLower
  rw [if_neg (by omega)]

theorem unicodeToLower_not_space (caseTable : Char → Char)
    (hspace : ∀ c : Char, 0x7F < c.toNat → unicodeIsSpace c = false →
      unicodeIsSpace (caseTable c) = false)
    (c : Char) (h : unicodeIsSpace c = false) :
    unicodeIsSpace (unicodeToLower caseTable c) = false := by
  by_cases hc : c.toNat ≤ 0x7F
  · rcases unicodeToLower_ascii_cases caseTable c hc with e | e
    · rw [e]
      exact h
    · cases hsp : unicodeIsSpace (unicodeToLower caseTable c) with
      | false => rfl
      | true =>
        have := (unicodeIsSpace_iff _).mp hsp
        omega
  · rw [unicodeToLower_of_not_ascii caseTable c (by omega)]
    exact hspace c (by omega) h

theorem validationClass_iff (r : Char) :
    validationClass r = true ↔
      ((0xA9B2 ≤ r.toNat ∧ r.toNat ≤ 0xA9FE) ∨ r.toNat = 0x09 ∨ r.toNat = 0x0A ∨
        r.toNat = 0x0C ∨ r.toNat = 0x0D ∨ r.toNat = 0x20) := by
  have hlo : 'ꦲ'.toNat = 0xA9B2 := by decide
  have hhi : 'ꧾ'.toNat = 0xA9FE := by decide
  have e : ∀ (d : Char), r = d ↔ r.toNat = d.toNat := by
    intro d
    constructor
    · intro h
      rw [h]
    · intro h
      rw [← Char.ofNat_toNat r, ← Char.ofNat_toNat d, h]
  simp only [validationClass, regexSpace, hlo, hhi, Bool.or_eq_true, Bool.and_eq_true,
    decide_eq_true_eq, e '\t', e '\n', e '\r', e ' ']
  have h1 : '\t'.toNat = 9 := by decide
  have h2 : '\n'.toNat = 10 := by decide
  have h3 : '\r'.toNat = 13 := by decide
  have h4 : ' '.toNat = 32 := by decide
  rw [h1, h2, h3, h4]
  tauto

theorem unicodeToLower_not_class (caseTable : Char → Char)
    (hclass : ∀ c : Char, 0x7F < c.toNat → validationClass (caseTable c) = true →
      validationClass c = true)
    (c : Char) (h : validationClass c = false) :
    validationClass (unicodeToLower caseTable c) = false := by
  cases hv : validationClass (unicodeToLower caseTable c) with
  | false => rfl
  | true =>
    exfalso
    by_cases hc : c.toNat ≤ 0x7F
    · rcases unicodeToLower_ascii_cases caseTable c hc with e | e
      · rw [e, h] at hv
        exact Bool.noConfusion hv
      · have := (validationClass_iff _).mp hv
        omega
    · rw [unicodeToLower_of_not_ascii caseTable c (by omega)] at hv
      rw [hclass c (by omega) hv] at h
      exact Bool.noConfusion h

theorem stringsTrimSpace_of_trimmed (l : List Char)
    (hhead : ∀ c, l.head? = some c → unicodeIsSpace c = false)
    (hlast : ∀ c, l.getLast? = some c → unicodeIsSpace c = false) :
    stringsTrimSpace ⟨l⟩ = ⟨l⟩ := by
  have h1 : l.dropWhile unicodeIsSpace = l := by
    cases l with
    | nil => rfl
    | cons c rest =>
      have := hhead c rfl
      simp [List.dropWhile, this]
  have h2 : l.rdropWhile unicodeIsSpace = l := by
    rw [List.rdropWhile_eq_self_iff]
    intro hl
    have := hlast (l.getLast hl) (List.getLast?_eq_getLast _ hl)
    simp [this]
  simp only [stringsTrimSpace, h1, h2]

/-- C20: `NormalizeText` is idempotent, its result neither starts nor ends with
white space, and lower-casing a text that fails `IsValidAksaraJava` gives a text
that fails it.  For the runes outside ASCII this rests on three facts of the case
table: it maps no rune that is not white space to white space, its values are
lower case, and it maps no rune outside the validation class into the class. -/
theorem normalizeText_idempotent (caseTable : Char → Char)
    (hspace : ∀ c : Char, 0x7F < c.toNat → unicodeIsSpace c = false →
      unicodeIsSpace (caseTable c) = false)
    (hidem : ∀ c : Char, 0x7F < c.toNat →
      unicodeToLower caseTable (caseTable c) = caseTable c)
    (hclass : ∀ c : Char, 0x7F < c.toNat → validationClass (caseTable c) = true →
      validationClass c = true)
    (s : String) :
    NormalizeText NewAksaraTranslator caseTable (NormalizeText NewAksaraTranslator caseTable s) =
      NormalizeText NewAksaraTranslator caseTable s ∧
    (∀ c, (NormalizeText NewAksaraTranslator caseTable s).data.head? = some c →
      unicodeIsSpace c = false) ∧
    (∀ c, (NormalizeText NewAksaraTranslator caseTable s).data.getLast? = some c →
      unicodeIsSpace c = false) ∧
    (IsValidAksaraJava NewAksaraTranslator s = false →
      IsValidAksaraJava NewAksaraTranslator (stringsToLower caseTable s) = false) := by
  obtain ⟨pre, post, _, _, _, hhead, hlast⟩ := stringsTrimSpace_spec s
  have hlhead : ∀ c, (stringsToLower caseTable (stringsTrimSpace s)).data.head? = some c →
      unicodeIsSpace c = false := by
    intro c hc
    simp only [stringsToLower, List.head?_map, Option.map_eq_some'] at hc
    obtain ⟨d, hd, rfl⟩ := hc
    exact unicodeToLower_not_space caseTable hspace d (hhead d hd)
  have hllast : ∀ c, (stringsToLower caseTable (stringsTrimSpace s)).data.getLast? = some c →
      unicodeIsSpace c = false := by
    intro c hc
    simp only [stringsToLower, List.getLast?_map, Option.map_eq_some'] at hc
    obtain ⟨d, hd, rfl⟩ := hc
    exact unicodeToLower_not_space caseTable hspace d (hlast d hd)
  refine ⟨?_, ?_, ?_, ?_⟩
  · by_cases hv : IsValidAksaraJava NewAksaraTranslator (stringsTrimSpace s) = true
    · have h1 : NormalizeText NewAksaraTranslator caseTable s = stringsTrimSpace s := by
        simp [NormalizeText, hv]
      rw [h1]
      have h2 : stringsTrimSpace (stringsTrimSpace s) = stringsTrimSpace s :=
        stringsTrimSpace_of_trimmed _ hhead hlast
      simp [NormalizeText, h2, hv]
    · have h1 : NormalizeText NewAksaraTranslator caseTable s =
          stringsToLower caseTable (stringsTrimSpace s) := by
        simp [NormalizeText, hv]
      rw [h1]
      have h2 : stringsTrimSpace (stringsToLower caseTable (stringsTrimSpace s)) =
          stringsToLower caseTable (stringsTrimSpace s) :=
        stringsTrimSpace_of_trimmed _ hlhead hllast
      unfold NormalizeText
      simp only [h2]
      split
      · rfl
      · exact stringsToLower_idem caseTable hidem _
  · intro c hc
    by_cases hv : IsValidAksaraJava NewAksaraTranslator (stringsTrimSpace s) = true
    · have h1 : NormalizeText NewAksaraTranslator caseTable s = stringsTrimSpace s := by
        simp [NormalizeText, hv]
      rw [h1] at hc
      exact hhead c hc
    · have h1 : NormalizeText NewAksaraTranslator caseTable s =
          stringsToLower caseTable (stringsTrimSpace s) := by
        simp [NormalizeText, hv]
      rw [h1] at hc
      exact hlhead c hc
  · intro c hc
    by_cases hv : IsValidAksaraJava NewAksaraTranslator (stringsTrimSpace s) = true
    · have h1 : NormalizeText NewAksaraTranslator caseTable s = stringsTrimSpace s := by
        simp [NormalizeText, hv]
      rw [h1] at hc
      exact hlast c hc
    · have h1 : NormalizeText NewAksaraTranslator caseTable s =
          stringsToLower caseTable (stringsTrimSpace s) := by
        simp [NormalizeText, hv]
      rw [h1] at hc
      exact hllast c hc
  · intro hinv
    cases hv : IsValidAksaraJava NewAksaraTranslator (stringsToLower caseTable s) with
    | false => rfl
    | true =>
      exfalso
      rw [isValidAksaraJava_iff] at hv
      obtain ⟨hne, hall⟩ := hv
      have hvalid : IsValidAksaraJava NewAksaraTranslator s = true := by
        rw [isValidAksaraJava_iff]
        refine ⟨fun h => hne ((stringsToLower_eq_empty caseTable s).mpr h), ?_⟩
        intro c hc
        cases hcl : validationClass c with
        | true => rfl
        | false =>
          have h1 := unicodeToLower_not_class caseTable hclass c hcl
          have h2 := hall (unicodeToLower caseTable c) (by
            simp only [stringsToLower]
            exact List.mem_map_of_mem _ hc)
          rw [h1] at h2
          exact Bool.noConfusion h2
      rw [hvalid] at hinv
      exact Bool.noConfusion hinv

/-- C20 at the identity case table and the text "  KANCA ". -/
theorem normalizeText_idempotent_witness :
    (∀ c : Char, 0x7F < c.toNat → unicodeIsSpace c = false → unicodeIsSpace (id c) = false) ∧
    (∀ c : Char, 0x7F < c.toNat → unicodeToLower id (id c) = id c) ∧
    (∀ c : Char, 0x7F < c.toNat → validationClass (id c) = true → validationClass c = true) ∧
    NormalizeText NewAksaraTranslator id (NormalizeText NewAksaraTranslator id "  KANCA ") =
      NormalizeText NewAksaraTranslator id "  KANCA " :=
  ⟨fun _ _ h => h, fun c hc => unicodeToLower_of_not_ascii id c hc, fun _ _ h => h,
    (normalizeText_idempotent id (fun _ _ h => h)
      (fun c hc => unicodeToLower_of_not_ascii id c hc) (fun _ _ h => h) "  KANCA ").1⟩

/-! ## The order of the digraph pre-pass -/

theorem replaceFrom_pair_nil (x y : Char) (new : List Char) :
    replaceFrom [x, y] new 0 [] = [] := by
  simp [replaceFrom]

theorem replaceFrom_pair_cons (x y : Char) (new : List Char) (c : Char) (l : List Char)
    (h : ∀ b, l.head? = some b → ¬ (c = x ∧ b = y)) :
    replaceFrom [x, y] new 0 (c :: l) = c :: replaceFrom [x, y] new 0 l := by
  cases l with
  | nil => rw [replaceFrom_pair_single, replaceFrom_pair_nil]
  | cons b rest => exact replaceFrom_pair_nomatch x y new c b rest (h b rfl)

theorem replaceFrom_pair_head (x y j c : Char) (l : List Char) (b : Char)
    (h : (replaceFrom [x, y] [j] 0 (c :: l)).head? = some b) : b = c ∨ b = j := by
  cases l with
  | nil =>
    rw [replaceFrom_pair_single] at h
    simp only [List.head?_cons, Option.some.injEq] at h
    exact Or.inl h.symm
  | cons c2 rest =>
    by_cases hm : c = x ∧ c2 = y
    · obtain ⟨rfl, rfl⟩ := hm
      rw [replaceFrom_pair_match] at h
      simp only [List.singleton_append, List.head?_cons, Option.some.injEq] at h
      exact Or.inr h.symm
    · rw [replaceFrom_pair_nomatch _ _ _ _ _ _ hm] at h
      simp only [List.head?_cons, Option.some.injEq] at h
      exact Or.inl h.symm

/-- Two replacements of digraphs commute, when no letter of one pattern and no
replacement rune can make or break an occurrence of the other. -/
theorem replaceFrom_comm (x y j x' y' j' : Char)
    (hne : ¬ (x = x' ∧ y = y')) (hyx : y ≠ x') (hyx' : y' ≠ x)
    (hjx : j ≠ x') (hjy : j ≠ y') (hjx' : j' ≠ x) (hjy' : j' ≠ y) (l : List Char) :
    replaceFrom [x, y] [j] 0 (replaceFrom [x', y'] [j'] 0 l) =
      replaceFrom [x', y'] [j'] 0 (replaceFrom [x, y] [j] 0 l) := by
  suffices H : ∀ l : List Char,
      (replaceFrom [x, y] [j] 0 (replaceFrom [x', y'] [j'] 0 l) =
        replaceFrom [x', y'] [j'] 0 (replaceFrom [x, y] [j] 0 l)) ∧
      ∀ c, replaceFrom [x, y] [j] 0 (replaceFrom [x', y'] [j'] 0 (c :: l)) =
        replaceFrom [x', y'] [j'] 0 (replaceFrom [x, y] [j] 0 (c :: l)) from (H l).1
  intro l
  induction l with
  | nil =>
    refine ⟨by simp [replaceFrom], fun c => ?_⟩
    rw [replaceFrom_pair_single, replaceFrom_pair_single, replaceFrom_pair_single]
  | cons c2 rest ih =>
    refine ⟨ih.2 c2, fun c1 => ?_⟩
    by_cases hA : c1 = x ∧ c2 = y
    · obtain ⟨rfl, rfl⟩ := hA
      rw [replaceFrom_pair_match c1 c2, List.singleton_append,
        replaceFrom_pair_cons x' y' _ j _ (fun b _ hb => hjx hb.1),
        replaceFrom_pair_nomatch x' y' _ c1 c2 rest hne,
        replaceFrom_pair_cons x' y' _ c2 rest (fun b _ hb => hyx hb.1),
        replaceFrom_pair_match c1 c2, List.singleton_append, ih.1]
    · by_cases hB : c1 = x' ∧ c2 = y'
      · obtain ⟨rfl, rfl⟩ := hB
        rw [replaceFrom_pair_match c1 c2, List.singleton_append,
          replaceFrom_pair_cons x y _ j' _ (fun b _ hb => hjx' hb.1),
          replaceFrom_pair_nomatch x y _ c1 c2 rest hA,
          replaceFrom_pair_cons x y _ c2 rest (fun b _ hb => hyx' hb.1),
          replaceFrom_pair_match c1 c2, List.singleton_append, ih.1]
      · rw [replaceFrom_pair_nomatch x' y' _ c1 c2 rest hB,
          replaceFrom_pair_nomatch x y _ c1 c2 rest hA,
          replaceFrom_pair_cons x y _ c1 _ (by
            intro b hb hm
            rcases replaceFrom_pair_head x' y' j' c2 rest b hb with e | e
            · exact hA ⟨hm.1, e ▸ hm.2⟩
            · exact hjy' (e ▸ hm.2)),
          replaceFrom_pair_cons x' y' _ c1 _ (by
            intro b hb hm
            rcases replaceFrom_pair_head x y j c2 rest b hb with e | e
            · exact hB ⟨hm.1, e ▸ hm.2⟩
            · exact hjy (e ▸ hm.2)),
          ih.2 c2]

theorem rule_letters (x y j : Char)
    (hrule : NewAksaraTranslator.complexConsonantRules.lookup ⟨[x, y]⟩ = some (runeToString j)) :
    (x = 'n' ∨ x = 't' ∨ x = 'd') ∧ (y = 'g' ∨ y = 'y' ∨ y = 'h') ∧
    (j = 'ꦔ' ∨ j = 'ꦚ' ∨ j = 'ꦛ' ∨ j = 'ꦝ') := by
  obtain ⟨hx, hy⟩ := pair_lookup x y _ hrule
  refine ⟨hx, hy, ?_⟩
  have := lookup_mem _ _ _ hrule
  simp [NewAksaraTranslator, runeToString, String.ext_iff] at this
  tauto

theorem first_ne_second (x y : Char) (hx : x = 'n' ∨ x = 't' ∨ x = 'd')
    (hy : y = 'g' ∨ y = 'y' ∨ y = 'h') : y ≠ x := by
  rcases hx with h | h | h <;> rcases hy with h' | h' | h' <;> · subst h; subst h'; decide

theorem consonant_ne_letter (j c : Char) (hj : j = 'ꦔ' ∨ j = 'ꦚ' ∨ j = 'ꦛ' ∨ j = 'ꦝ')
    (hc : c.toNat < 128) : j ≠ c := by
  intro e
  subst e
  rcases hj with h | h | h | h <;> · subst h; revert hc; decide

theorem letter_lt (c : Char)
    (hc : (c = 'n' ∨ c = 't' ∨ c = 'd') ∨ (c = 'g' ∨ c = 'y' ∨ c = 'h')) : c.toNat < 128 := by
  rcases hc with (h | h | h) | (h | h | h) <;> · subst h; decide

/-- Two rules of the digraph table can be applied in either order. -/
theorem stringsReplaceAll_comm (r1 r2 : String × String)
    (h1 : r1 ∈ NewAksaraTranslator.complexConsonantRules)
    (h2 : r2 ∈ NewAksaraTranslator.complexConsonantRules) (s : String) :
    stringsReplaceAll (stringsReplaceAll s r1.1 r1.2) r2.1 r2.2 =
      stringsReplaceAll (stringsReplaceAll s r2.1 r2.2) r1.1 r1.2 := by
  by_cases e : r1 = r2
  · rw [e]
  · obtain ⟨x, y, j, rfl, _, hrule⟩ := rule_shape r1 h1
    obtain ⟨x', y', j', rfl, _, hrule'⟩ := rule_shape r2 h2
    obtain ⟨hx, hy, hj⟩ := rule_letters x y j hrule
    obtain ⟨hx', hy', hj'⟩ := rule_letters x' y' j' hrule'
    have hne : ¬ (x' = x ∧ y' = y) := by
      rintro ⟨rfl, rfl⟩
      rw [hrule] at hrule'
      simp only [Option.some.injEq] at hrule'
      exact e (by rw [hrule'])
    have hk : (⟨[x, y]⟩ : String) ≠ runeToString j := by
      simp [runeToString, String.ext_iff]
    have hk' : (⟨[x', y']⟩ : String) ≠ runeToString j' := by
      simp [runeToString, String.ext_iff]
    simp only [stringsReplaceAll, if_neg hk, if_neg hk']
    rw [if_neg (by simp), if_neg (by simp), if_neg (by simp), if_neg (by simp)]
    simp only [runeToString]
    rw [replaceFrom_comm x' y' j' x y j hne (first_ne_second x y' hx hy')
      (first_ne_second x' y hx' hy)
      (consonant_ne_letter j' x hj' (letter_lt x (Or.inl hx)))
      (consonant_ne_letter j' y hj' (letter_lt y (Or.inr hy)))
      (consonant_ne_letter j x' hj (letter_lt x' (Or.inl hx')))
      (consonant_ne_letter j y' hj (letter_lt y' (Or.inr hy')))]

/-- The pre-pass gives the same text in every order of the rules. -/
theorem preprocessConsonants_perm (order order' : Table)
    (horder : order.Perm NewAksaraTranslator.complexConsonantRules)
    (horder' : order'.Perm NewAksaraTranslator.complexConsonantRules) (s : String) :
    preprocessConsonants order s = preprocessConsonants order' s := by
  unfold preprocessConsonants
  apply List.Perm.foldl_eq' (horder.trans horder'.symm)
  intro r1 hr1 r2 hr2 z
  exact stringsReplaceAll_comm r1 r2 (horder.subset hr1) (horder.subset hr2) z

theorem isPrefixOf_pair (x y c : Char) (l : List Char) :
    [x, y].isPrefixOf (c :: l) = true ↔ (c = x ∧ l.head? = some y) := by
  cases l with
  | nil => simp [List.isPrefixOf]
  | cons b rest =>
    simp only [List.isPrefixOf, Bool.and_eq_true, beq_iff_eq, List.head?_cons,
      Option.some.injEq, and_true]
    constructor
    · rintro ⟨h1, h2⟩
      exact ⟨h1.symm, h2.symm⟩
    · rintro ⟨h1, h2⟩
      exact ⟨h1.symm, h2.symm⟩

theorem occurrences_cons (x y c : Char) (l : List Char) :
    occurrences ⟨[x, y]⟩ ⟨c :: l⟩ =
      occurrences ⟨[x, y]⟩ ⟨l⟩ + if c = x ∧ l.head? = some y then 1 else 0 := by
  simp only [occurrences, List.tails_cons, List.countP_cons, isPrefixOf_pair]

theorem occurrences_nil (x y : Char) : occurrences ⟨[x, y]⟩ ⟨[]⟩ = 0 := by
  simp [occurrences, List.isPrefixOf]

theorem occurrences_cons_of_ne (x y c : Char) (l : List Char) (h : c ≠ x) :
    occurrences ⟨[x, y]⟩ ⟨c :: l⟩ = occurrences ⟨[x, y]⟩ ⟨l⟩ := by
  rw [occurrences_cons, if_neg (fun hh => h hh.1), Nat.add_zero]

theorem occurrences_le_cons (x y c : Char) (l : List Char) :
    occurrences ⟨[x, y]⟩ ⟨l⟩ ≤ occurrences ⟨[x, y]⟩ ⟨c :: l⟩ := by
  rw [occurrences_cons]
  exact Nat.le_add_right _ _

/-- Replacing a digraph by a rune that is no letter of the pattern `[x', y']` does
not add an occurrence of that pattern. -/
theorem occurrences_replaceFrom_le (x y j x' y' : Char) (hjx : j ≠ x') (hjy : j ≠ y')
    (l : List Char) :
    occurrences ⟨[x', y']⟩ ⟨replaceFrom [x, y] [j] 0 l⟩ ≤ occurrences ⟨[x', y']⟩ ⟨l⟩ := by
  suffices H : ∀ l : List Char,
      (occurrences ⟨[x', y']⟩ ⟨replaceFrom [x, y] [j] 0 l⟩ ≤ occurrences ⟨[x', y']⟩ ⟨l⟩) ∧
      ∀ c, occurrences ⟨[x', y']⟩ ⟨replaceFrom [x, y] [j] 0 (c :: l)⟩ ≤
        occurrences ⟨[x', y']⟩ ⟨c :: l⟩ from (H l).1
  intro l
  induction l with
  | nil =>
    refine ⟨by rw [replaceFrom_pair_nil], fun c => ?_⟩
    rw [replaceFrom_pair_single]
  | cons c2 rest ih =>
    refine ⟨ih.2 c2, fun c1 => ?_⟩
    by_cases hm : c1 = x ∧ c2 = y
    · obtain ⟨rfl, rfl⟩ := hm
      rw [replaceFrom_pair_match, List.singleton_append, occurrences_cons_of_ne _ _ _ _ hjx]
      exact Nat.le_trans ih.1
        (Nat.le_trans (occurrences_le_cons _ _ c2 rest) (occurrences_le_cons _ _ c1 _))
    · rw [replaceFrom_pair_nomatch _ _ _ _ _ _ hm, occurrences_cons, occurrences_cons x' y' c1]
      have h1 := ih.2 c2
      have h2 : (if c1 = x' ∧ (replaceFrom [x, y] [j] 0 (c2 :: rest)).head? = some y'
          then 1 else 0) ≤ (if c1 = x' ∧ (c2 :: rest).head? = some y' then 1 else 0) := by
        by_cases hh : c1 = x' ∧ (replaceFrom [x, y] [j] 0 (c2 :: rest)).head? = some y'
        · rw [if_pos hh]
          rcases replaceFrom_pair_head x y j c2 rest y' hh.2 with e | e
          · rw [if_pos ⟨hh.1, by rw [e]; rfl⟩]
          · exact absurd e.symm hjy
        · rw [if_neg hh]
          exact Nat.zero_le _
      exact Nat.add_le_add h1 h2

/-- After the replacement of a digraph no occurrence of it is left. -/
theorem occurrences_replaceFrom_self (x y j : Char) (hjx : j ≠ x) (hjy : j ≠ y)
    (l : List Char) :
    occurrences ⟨[x, y]⟩ ⟨replaceFrom [x, y] [j] 0 l⟩ = 0 := by
  suffices H : ∀ l : List Char,
      (occurrences ⟨[x, y]⟩ ⟨replaceFrom [x, y] [j] 0 l⟩ = 0) ∧
      ∀ c, occurrences ⟨[x, y]⟩ ⟨replaceFrom [x, y] [j] 0 (c :: l)⟩ = 0 from (H l).1
  intro l
  induction l with
  | nil =>
    refine ⟨by rw [replaceFrom_pair_nil, occurrences_nil], fun c => ?_⟩
    rw [replaceFrom_pair_single, occurrences_cons, occurrences_nil]
    simp
  | cons c2 rest ih =>
    refine ⟨ih.2 c2, fun c1 => ?_⟩
    by_cases hm : c1 = x ∧ c2 = y
    · obtain ⟨rfl, rfl⟩ := hm
      rw [replaceFrom_pair_match, List.singleton_append, occurrences_cons_of_ne _ _ _ _ hjx]
      exact ih.1
    · rw [replaceFrom_pair_nomatch _ _ _ _ _ _ hm, occurrences_cons, ih.2 c2, if_neg]
      rintro ⟨h1, h2⟩
      rcases replaceFrom_pair_head x y j c2 rest y h2 with e | e
      · exact hm ⟨h1, e.symm⟩
      · exact hjy e.symm

theorem occurrences_eq_zero_iff (old s : String) :
    occurrences old s = 0 ↔ ¬ old.data <:+: s.data := by
  unfold occurrences
  rw [List.countP_eq_zero, List.infix_iff_prefix_suffix]
  constructor
  · rintro h ⟨t, ht1, ht2⟩
    exact h t ((List.mem_tails t s.data).mpr ht2) (List.isPrefixOf_iff_prefix.mpr ht1)
  · intro h t ht hp
    exact h ⟨t, List.isPrefixOf_iff_prefix.mp hp, (List.mem_tails t s.data).mp ht⟩

theorem stringsReplaceAll_rule (x y j : Char) (s : String) :
    stringsReplaceAll s ⟨[x, y]⟩ (runeToString j) = ⟨replaceFrom [x, y] [j] 0 s.data⟩ := by
  have hk : (⟨[x, y]⟩ : String) ≠ runeToString j := by
    simp [runeToString, String.ext_iff]
  simp only [stringsReplaceAll, if_neg hk]
  rw [if_neg (by simp)]
  rfl

theorem key_shape (d : String) (hd : d ∈ NewAksaraTranslator.complexConsonantRules.keys) :
    ∃ x y : Char, d = ⟨[x, y]⟩ ∧ x.toNat < 128 ∧ y.toNat < 128 := by
  simp only [Table.keys, List.mem_map] at hd
  obtain ⟨r, hr, rfl⟩ := hd
  obtain ⟨x, y, j, rfl, _, hrule⟩ := rule_shape r hr
  obtain ⟨hx, hy, _⟩ := rule_letters x y j hrule
  exact ⟨x, y, rfl, letter_lt x (Or.inl hx), letter_lt y (Or.inr hy)⟩

theorem occurrences_stringsReplaceAll_le (rule : String × String)
    (hrule : rule ∈ NewAksaraTranslator.complexConsonantRules) (d : String)
    (hd : d ∈ NewAksaraTranslator.complexConsonantRules.keys) (s : String) :
    occurrences d (stringsReplaceAll s rule.1 rule.2) ≤ occurrences d s := by
  obtain ⟨x, y, j, rfl, _, hlook⟩ := rule_shape rule hrule
  obtain ⟨_, _, hj⟩ := rule_letters x y j hlook
  obtain ⟨x', y', rfl, hx', hy'⟩ := key_shape d hd
  rw [stringsReplaceAll_rule]
  exact occurrences_replaceFrom_le x y j x' y' (consonant_ne_letter j x' hj hx')
    (consonant_ne_letter j y' hj hy') s.data

theorem occurrences_stringsReplaceAll_self (rule : String × String)
    (hrule : rule ∈ NewAksaraTranslator.complexConsonantRules) (s : String) :
    occurrences rule.1 (stringsReplaceAll s rule.1 rule.2) = 0 := by
  obtain ⟨x, y, j, rfl, _, hlook⟩ := rule_shape rule hrule
  obtain ⟨hx, hy, hj⟩ := rule_letters x y j hlook
  rw [stringsReplaceAll_rule]
  exact occurrences_replaceFrom_self x y j
    (consonant_ne_letter j x hj (letter_lt x (Or.inl hx)))
    (consonant_ne_letter j y hj (letter_lt y (Or.inr hy))) s.data

theorem occurrences_preprocessConsonants_le (order : Table)
    (horder : ∀ rule ∈ order, rule ∈ NewAksaraTranslator.complexConsonantRules) (d : String)
    (hd : d ∈ NewAksaraTranslator.complexConsonantRules.keys) (s : String) :
    occurrences d (preprocessConsonants order s) ≤ occurrences d s := by
  unfold preprocessConsonants
  induction order generalizing s with
  | nil => exact Nat.le_refl _
  | cons rule rest ih =>
    rw [List.foldl_cons]
    exact Nat.le_trans (ih (fun r hr => horder r (List.mem_cons_of_mem _ hr)) _)
      (occurrences_stringsReplaceAll_le rule (horder rule (List.mem_cons_self _ _)) d hd s)

theorem occurrences_preprocessConsonants_zero (order : Table)
    (horder : ∀ rule ∈ order, rule ∈ NewAksaraTranslator.complexConsonantRules)
    (rule : String × String) (hrule : rule ∈ order) (s : String) :
    occurrences rule.1 (preprocessConsonants order s) = 0 := by
  induction order generalizing s with
  | nil => exact absurd hrule (List.not_mem_nil _)
  | cons r rest ih =>
    have hrest : ∀ q ∈ rest, q ∈ NewAksaraTranslator.complexConsonantRules :=
      fun q hq => horder q (List.mem_cons_of_mem _ hq)
    have hstep : preprocessConsonants (r :: rest) s =
        preprocessConsonants rest (stringsReplaceAll s r.1 r.2) := rfl
    rw [hstep]
    rcases List.mem_cons.mp hrule with e | hmem
    · subst e
      have hkey : rule.1 ∈ NewAksaraTranslator.complexConsonantRules.keys :=
        List.mem_map_of_mem Prod.fst (horder rule (List.mem_cons_self _ _))
      have h1 := occurrences_preprocessConsonants_le rest hrest rule.1 hkey
        (stringsReplaceAll s rule.1 rule.2)
      rw [occurrences_stringsReplaceAll_self rule (horder rule (List.mem_cons_self _ _))] at h1
      exact Nat.le_zero.mp h1
    · exact ih hrest hmem _

/-- C16: the digraph pre-pass does not depend on the order of the rules.  For two
enumeration orders of the four rules and every input, the sequential replacements
give the same text; no single replacement raises the number of occurrences of any
digraph; the text after the pre-pass holds no occurrence of "ng", "ny", "th" or
"dh"; and `TranslateLatinToJavanese` returns the same result in both orders. -/
theorem preprocessConsonants_order_independent (caseTable : Char → Char)
    (order order' : Table)
    (horder : order.Perm NewAksaraTranslator.complexConsonantRules)
    (horder' : order'.Perm NewAksaraTranslator.complexConsonantRules) (s : String) :
    NewAksaraTranslator.complexConsonantRules.keys = ["ng", "ny", "th", "dh"] ∧
    preprocessConsonants order s = preprocessConsonants order' s ∧
    (∀ rule ∈ NewAksaraTranslator.complexConsonantRules,
      ∀ d ∈ NewAksaraTranslator.complexConsonantRules.keys, ∀ text : String,
        occurrences d (stringsReplaceAll text rule.1 rule.2) ≤ occurrences d text) ∧
    (∀ d ∈ NewAksaraTranslator.complexConsonantRules.keys,
      occurrences d (preprocessConsonants order s) = 0 ∧
      ¬ d.data <:+: (preprocessConsonants order s).data) ∧
    TranslateLatinToJavanese NewAksaraTranslator caseTable order s =
      TranslateLatinToJavanese NewAksaraTranslator caseTable order' s := by
  refine ⟨by decide, preprocessConsonants_perm order order' horder horder' s,
    fun rule hrule d hd text => occurrences_stringsReplaceAll_le rule hrule d hd text, ?_, ?_⟩
  · intro d hd
    have hzero : occurrences d (preprocessConsonants order s) = 0 := by
      simp only [Table.keys, List.mem_map] at hd
      obtain ⟨r, hr, rfl⟩ := hd
      exact occurrences_preprocessConsonants_zero order (fun q hq => horder.subset hq) r
        (horder.symm.subset hr) s
    exact ⟨hzero, (occurrences_eq_zero_iff _ _).mp hzero⟩
  · simp only [TranslateLatinToJavanese,
      preprocessConsonants_perm order order' horder horder']

/-- C16 at the identity case table, the source order of the rules and its reverse,
and the input "dhthnyng". -/
theorem preprocessConsonants_order_independent_witness :
    NewAksaraTranslator.complexConsonantRules.Perm NewAksaraTranslator.complexConsonantRules ∧
    NewAksaraTranslator.complexConsonantRules.reverse.Perm
      NewAksaraTranslator.complexConsonantRules ∧
    preprocessConsonants NewAksaraTranslator.complexConsonantRules "dhthnyng" =
      preprocessConsonants NewAksaraTranslator.complexConsonantRules.reverse "dhthnyng" ∧
    TranslateLatinToJavanese NewAksaraTranslator id NewAksaraTranslator.complexConsonantRules
        "dhthnyng" =
      TranslateLatinToJavanese NewAksaraTranslator id
        NewAksaraTranslator.complexConsonantRules.reverse "dhthnyng" :=
  ⟨List.Perm.refl _, List.reverse_perm _,
    (preprocessConsonants_order_independent id NewAksaraTranslator.complexConsonantRules
      NewAksaraTranslator.complexConsonantRules.reverse (List.Perm.refl _)
      (List.reverse_perm _) "dhthnyng").2.1,
    (preprocessConsonants_order_independent id NewAksaraTranslator.complexConsonantRules
      NewAksaraTranslator.complexConsonantRules.reverse (List.Perm.refl _)
      (List.reverse_perm _) "dhthnyng").2.2.2.2⟩

end Aksara
